import Mathlib

/-!
# jsonbuf: JSON to proto3 schema inference

A shallow embedding of `main.go` (the converter `toProtoBuf` and the functions it
calls) together with theorems about it.

Conventions of the embedding.

* A Go `map[string]V` is an association list `GoMap V` whose keys are pairwise
  distinct.  Go fixes no order for `range` over a map.  The loop of `toProtos`
  visits the entries of its object in list order, so a statement proved for
  every list is a statement for every key-processing order.  The two `range`
  statements of the renderer visit the message set and the lines of a message
  in the order given by a `RangeOrder`, and statements about the rendered text
  hold for every admissible one.
* A Go `interface{}` value is a `GoValue`, one constructor per dynamic kind that
  the type switches of `typeWithNameAndIndex` tell apart.
* Inner maps are Go references, but every inner map is reachable from one
  outer map under one name only, so value semantics loses nothing.
* An `error` is its message text; a `(T, error)` result is a pair whose second
  component is `none` for a nil error.
-/

namespace Jsonbuf

/-! ## Go maps -/

/-- A Go `map[string]V`: its entries as a list, the keys pairwise distinct. -/
abbrev GoMap (V : Type) := List (String × V)

/-- The keys of a map, in visiting order. -/
def mapKeys {V : Type} (m : GoMap V) : List String := m.map Prod.fst

/-- The lookup `m[k]`, `none` when the key is absent. -/
def mapGet {V : Type} : GoMap V → String → Option V
  | [], _ => none
  | (k', v') :: rest, k => if k' = k then some v' else mapGet rest k

/-- The assignment `m[k] = v`: replaces the value of an existing key, adds the key otherwise. -/
def mapSet {V : Type} : GoMap V → String → V → GoMap V
  | [], k, v => [(k, v)]
  | (k', v') :: rest, k, v =>
    if k' = k then (k', v) :: rest else (k', v') :: mapSet rest k v

/-! ## Dynamically typed values -/

/-- A Go `interface{}` value, by dynamic kind.  The payload of the float kinds is
the number denoted; no function of the program inspects it. -/
inductive GoValue where
  | str (s : String)
  | slice (xs : List GoValue)
  | int (n : Int)
  | int32 (n : Int)
  | int64 (n : Int)
  | float32 (x : ℚ)
  | float64 (x : ℚ)
  | object (m : List (String × GoValue))
  | bool (b : Bool)
  | nil

/-- A well-formed JSON document (RFC 8259 value).  An object lists its members in
document order and may repeat a key; a number is given by its value. -/
inductive Json where
  | null
  | bool (b : Bool)
  | number (q : ℚ)
  | string (s : String)
  | array (xs : List Json)
  | object (members : List (String × Json))

/-- An `error` value, by its message. -/
abbrev Error := String

/-- The bound of the float64 range: the midpoint between the largest finite
float64, `2^1024 - 2^971`, and `2^1024`.  A number whose absolute value is below
it is rounded to a finite float64; any other overflows. -/
def float64Limit : ℚ := 2 ^ 1024 - 2 ^ 970

/-- The number is within the float64 range, so `strconv.ParseFloat` accepts it. -/
def fitsFloat64 (q : ℚ) : Bool := decide (-float64Limit < q ∧ q < float64Limit)

/-- The error `json.Unmarshal` returns for a number outside the float64 range.
The message of Go also quotes the literal of the number, which `Json.number`
does not keep. -/
def rangeError : Error := "json: cannot unmarshal number into Go value of type float64"

mutual
/-- The value `json.Unmarshal` stores into an `interface{}` for a well-formed
document (package `encoding/json`): `bool` for booleans, `float64` for every
number within the float64 range, `string`, `[]interface{}`,
`map[string]interface{}` and `nil` for null; a number outside the float64 range
anywhere in the document makes it return an error, the earliest one. -/
def decode : Json → Except Error GoValue
  | .null => .ok .nil
  | .bool b => .ok (.bool b)
  | .number q => if fitsFloat64 q then .ok (.float64 q) else .error rangeError
  | .string s => .ok (.str s)
  | .array xs =>
    match decodeElems xs with
    | .ok vs => .ok (.slice vs)
    | .error e => .error e
  | .object members =>
    match decodeMembers members [] with
    | .ok m => .ok (.object m)
    | .error e => .error e
/-- The elements of a decoded array. -/
def decodeElems : List Json → Except Error (List GoValue)
  | [] => .ok []
  | x :: xs =>
    match decode x with
    | .error e => .error e
    | .ok v =>
      match decodeElems xs with
      | .ok vs => .ok (v :: vs)
      | .error e => .error e
/-- The members of a decoded object, assigned one by one: a repeated key keeps
its last value.  The list keeps the keys in the order of their first
occurrence; that order stands for the order in which `toProtos` later ranges
over the map, which Go does not fix, so a statement about every document is a
statement about every such order. -/
def decodeMembers : List (String × Json) → GoMap GoValue → Except Error (GoMap GoValue)
  | [], acc => .ok acc
  | (k, j) :: rest, acc =>
    match decode j with
    | .error e => .error e
    | .ok v => decodeMembers rest (mapSet acc k v)
end

/-! ## The program -/

/-- The constant `header`. -/
def header : String := "syntax = \"proto3\";\n\npackage jsonbuf;\n\n"

/-- What an `io.Reader` delivers to `ioutil.ReadAll` and then to `json.Unmarshal`:
a read error, text that is not well-formed JSON (with the error of
`json.Unmarshal`), or the text of a well-formed document. -/
inductive Reader where
  | failing (readerr : Error)
  | malformed (jerr : Error)
  | document (j : Json)

/-- The message set `map[string]map[string]string`: message name to (key to field line). -/
abbrev SchemaSet := GoMap (GoMap String)

/-- The function `unmarshal`. -/
def unmarshal (reader : Reader) : GoMap GoValue × Option Error :=
  let emptyResponse : GoMap GoValue := []
  match reader with
  | .failing readerr => (emptyResponse, some readerr)
  | .malformed jerr => (emptyResponse, some jerr)
  | .document j =>
    match decode j with
    | .error jerr => (emptyResponse, some jerr)
    | .ok (.object jsonMap) => (jsonMap, none)
    | .ok _ => (emptyResponse, some "Could not cast raw to json-map.")

/-- The closure `nameit` of `typeWithNameAndIndex`:
`fmt.Sprintf("\t%s %s = %d ;", t, n, i)` and a fresh empty map. -/
def nameit (t n : String) (i : Nat) : String × GoMap GoValue :=
  ("\t" ++ t ++ " " ++ n ++ " = " ++ toString i ++ " ;", [])

/-- The function `typeWithNameAndIndex`.  The array case and the `int` case fall
out of their switch to the final `return "", make(...)`; `bool` and `nil` are the
values that reach the inner `default`, where `%v` prints the value itself. -/
def typeWithNameAndIndex (name : String) (dataType : GoValue) (count : Nat) :
    String × GoMap GoValue :=
  match dataType with
  | .str _ => nameit "string " name count
  | .slice _ => ("", [])
  | .int _ => ("", [])
  | .int32 _ => nameit "int32" name count
  | .int64 _ => nameit "int64" name count
  | .float32 _ => nameit "float32" name count
  | .float64 _ => nameit "float64" name count
  | .object m => ("", m)
  | .bool b => nameit (if b then "true" else "false") name count
  | .nil => nameit "<nil>" name count

/-- The function `mergemaps`. -/
def mergemaps (map1 map2 : SchemaSet) : SchemaSet :=
  let result : SchemaSet := []
  let result := map1.foldl (fun r kv => mapSet r kv.1 kv.2) result
  map2.foldl (fun r kv => mapSet r kv.1 kv.2) result

/-- The statement `res[messageName][k] = v`.  A write through an absent message
would panic in Go; no pass of the loop of `toProtos` reaches that case
(`toProtos_pass_defines`), and the model leaves the set unchanged there. -/
def setField (res : SchemaSet) (messageName k v : String) : SchemaSet :=
  match mapGet res messageName with
  | some fields => mapSet res messageName (mapSet fields k v)
  | none => res

/-- The reference line of a nested message: `fmt.Sprintf("\t%s %s = %d;", nestedName, k, counter)`. -/
def refField (nestedName k : String) (counter : Nat) : String :=
  "\t" ++ nestedName ++ " " ++ k ++ " = " ++ toString counter ++ ";"

mutual
/-- The function `toProtos`. -/
def toProtos (messageName : String) (unknowns : GoMap GoValue) : SchemaSet :=
  toProtosLoop messageName unknowns [(messageName, [])] 0
termination_by (sizeOf unknowns, 1)
decreasing_by
  exact Prod.Lex.right _ Nat.zero_lt_one
/-- The loop `for k, v := range unknowns` of `toProtos`, from the state `res`, `counter`. -/
def toProtosLoop (messageName : String) (unknowns : GoMap GoValue)
    (res : SchemaSet) (counter : Nat) : SchemaSet :=
  match unknowns with
  | [] => res
  | (k, v) :: rest =>
    let tm := typeWithNameAndIndex k v counter
    let res1 :=
      if _h : 0 < tm.2.length then
        let nestedName := k
        mergemaps (setField res messageName nestedName (refField nestedName k counter))
          (toProtos nestedName tm.2)
      else res
    let res2 := if tm.1 ≠ "" then setField res1 messageName k tm.1 else res1
    toProtosLoop messageName rest res2 (counter + 1)
termination_by (sizeOf unknowns, 0)
decreasing_by
  · apply Prod.Lex.left
    have hpos : 0 < (typeWithNameAndIndex k v counter).2.length := _h
    have hlt : sizeOf (typeWithNameAndIndex k v counter).2 < sizeOf v := by
      cases v <;> simp [typeWithNameAndIndex, nameit] at hpos ⊢
    simp only [List.cons.sizeOf_spec, Prod.mk.sizeOf_spec]
    omega
  · apply Prod.Lex.left
    simp only [List.cons.sizeOf_spec, Prod.mk.sizeOf_spec]
    omega
end

/-- The orders in which the two `range` statements of the renderer visit their
maps; Go fixes none.  `messages` arranges the message set that `toPrettyStrings`
ranges over, `lines name` the field lines of the message `name` that
`toPrettyProtoString` ranges over. -/
structure RangeOrder where
  messages : SchemaSet → SchemaSet
  lines : String → GoMap String → GoMap String

/-- A range order is admissible when it visits every entry of a map once: it
permutes the entries. -/
def RangeOrder.Admissible (ord : RangeOrder) : Prop :=
  (∀ s, (ord.messages s).Perm s) ∧ ∀ name l, (ord.lines name l).Perm l

/-- The range order that visits every map in the order of insertion. -/
def insertionOrder : RangeOrder := ⟨fun s => s, fun _ l => l⟩

/-- The range order that visits every map against the order of insertion. -/
def reverseOrder : RangeOrder := ⟨List.reverse, fun _ l => l.reverse⟩

/-- The function `toPrettyProtoString`, its `range` visiting the lines in the order `ord`. -/
def toPrettyProtoString (ord : RangeOrder) (messageName : String) (strings : GoMap String) :
    String :=
  let buffer := "message " ++ messageName ++ " \x7b\n"
  let buffer := (ord.lines messageName strings).foldl (fun b kv => b ++ kv.2 ++ "\n") buffer
  buffer ++ "\x7d"

/-- The function `toPrettyStrings`, its `range` visiting the messages in the order `ord`. -/
def toPrettyStrings (ord : RangeOrder) (strings : SchemaSet) : List String :=
  (ord.messages strings).foldl
    (fun res kv => res ++ [toPrettyProtoString ord kv.1 kv.2]) []

/-- The function `toProtoBuf`, the `range` statements of the renderer visiting
their maps in the order `ord`. -/
def toProtoBuf (ord : RangeOrder) (reader : Reader) : String × Option Error :=
  match unmarshal reader with
  | (_, some err) => ("", some err)
  | (jsonMap, none) =>
    let protodefs := toProtos "RootBuf" jsonMap
    let pretties := toPrettyStrings ord protodefs
    let strbuf := header
    let strbuf := pretties.foldl (fun b p => b ++ p ++ "\n\n") strbuf
    (strbuf, none)

/-! ## Vocabulary of the specification -/

/-- The non-empty objects nested in an object at any depth reached through
objects, each with the key that holds it, a parent before its children. -/
def nestedObjects : GoMap GoValue → List (String × GoMap GoValue)
  | [] => []
  | (_, .object []) :: rest => nestedObjects rest
  | (k, .object (e :: m)) :: rest =>
    (k, e :: m) :: (nestedObjects (e :: m) ++ nestedObjects rest)
  | (_, _) :: rest => nestedObjects rest

/-- The keys that hold a non-empty nested object, at any depth. -/
def nestedNames (obj : GoMap GoValue) : List String := (nestedObjects obj).map Prod.fst

/-- The number of objects nested in an object at any depth, empty ones included. -/
def countNestedObjects : GoMap GoValue → Nat
  | [] => 0
  | (_, .object m) :: rest => 1 + countNestedObjects m + countNestedObjects rest
  | (_, _) :: rest => countNestedObjects rest

/-- No array occurs in the tree. -/
def noArrays : GoMap GoValue → Bool
  | [] => true
  | (_, .slice _) :: _ => false
  | (_, .object m) :: rest => noArrays m && noArrays rest
  | (_, _) :: rest => noArrays rest

/-- The value is an array. -/
def isArray : GoValue → Bool
  | .slice _ => true
  | _ => false

/-- The value is of the plain `int` kind. -/
def isPlainInt : GoValue → Bool
  | .int _ => true
  | _ => false

/-- The value is an object. -/
def isObject : GoValue → Bool
  | .object _ => true
  | _ => false

/-- The value is an object without keys. -/
def isEmptyObject : GoValue → Bool
  | .object [] => true
  | _ => false

/-- The line that one pass of the loop of `toProtos` stores for key `k`, if any:
the reference line for a non-empty nested map, else the text returned by
`typeWithNameAndIndex` when it is not empty. -/
def fieldLine (k : String) (v : GoValue) (counter : Nat) : Option String :=
  let tm := typeWithNameAndIndex k v counter
  if 0 < tm.2.length then some (refField k k counter)
  else if tm.1 ≠ "" then some tm.1
  else none

/-- The lines stored for the keys of an object processed from `counter` on, in processing order. -/
def fieldLines : GoMap GoValue → Nat → GoMap String
  | [], _ => []
  | (k, v) :: rest, counter =>
    match fieldLine k v counter with
    | some line => (k, line) :: fieldLines rest (counter + 1)
    | none => fieldLines rest (counter + 1)

/-- The value of a string of decimal digits. -/
def digitsValue (ds : List Char) : Nat :=
  ds.foldl (fun a c => 10 * a + (c.toNat - 48)) 0

/-- The field number written in a field line: the decimal number that stands
before the closing `;`, blanks between them skipped. -/
def fieldNumber (line : String) : Option Nat :=
  match line.data.reverse with
  | ';' :: r =>
    let ds := ((r.dropWhile (fun c => c == ' ')).takeWhile Char.isDigit).reverse
    if ds.isEmpty then none else some (digitsValue ds)
  | _ => none

/-- Every object of the tree that `toProtos` visits has pairwise distinct keys, as a Go map has. -/
def KeysDistinct (obj : GoMap GoValue) : Prop :=
  (mapKeys obj).Nodup ∧ ∀ e ∈ nestedObjects obj, (mapKeys e.2).Nodup

/-- No non-empty nested object is held by a key equal to the name of a message
that encloses it, the root message `messageName` included. -/
def NoShadow (messageName : String) (obj : GoMap GoValue) : Prop :=
  messageName ∉ nestedNames obj ∧ ∀ e ∈ nestedObjects obj, e.1 ∉ nestedNames e.2

/-- The line `l` (key and text) is the line of a key of one of the objects, at
the position of that key. -/
def IsLineOf (objs : List (GoMap GoValue)) (l : String × String) : Prop :=
  ∃ o ∈ objs, ∃ j v, o[j]? = some (l.1, v) ∧ fieldLine l.1 v j = some l.2

/-! ## Facts about maps -/

theorem mapGet_mapSet {V : Type} (m : GoMap V) (k k' : String) (v : V) :
    mapGet (mapSet m k v) k' = if k = k' then some v else mapGet m k' := by
  induction m with
  | nil => simp [mapSet, mapGet]
  | cons e rest ih =>
    obtain ⟨k0, v0⟩ := e
    by_cases h0 : k0 = k
    · subst h0
      by_cases h1 : k0 = k' <;> simp [mapSet, mapGet, h1]
    · by_cases h1 : k0 = k'
      · subst h1
        have : ¬ k = k0 := fun h => h0 h.symm
        simp [mapSet, mapGet, h0, this]
      · simp [mapSet, mapGet, h0, h1, ih]

theorem mapGet_mapSet_self {V : Type} (m : GoMap V) (k : String) (v : V) :
    mapGet (mapSet m k v) k = some v := by
  simp [mapGet_mapSet]

theorem mapGet_mapSet_ne {V : Type} (m : GoMap V) {k k' : String} (v : V) (h : k ≠ k') :
    mapGet (mapSet m k v) k' = mapGet m k' := by
  simp [mapGet_mapSet, h]

theorem mapKeys_mapSet {V : Type} (m : GoMap V) (k : String) (v : V) :
    mapKeys (mapSet m k v) = if k ∈ mapKeys m then mapKeys m else mapKeys m ++ [k] := by
  induction m with
  | nil => simp [mapSet, mapKeys]
  | cons e rest ih =>
    obtain ⟨k0, v0⟩ := e
    by_cases h0 : k0 = k
    · subst h0
      simp [mapSet, mapKeys]
    · have h0' : ¬ k = k0 := fun h => h0 h.symm
      simp only [mapKeys] at ih
      by_cases h1 : k ∈ List.map Prod.fst rest
      · simp [mapSet, mapKeys, h0, h0', ih, h1]
      · simp [mapSet, mapKeys, h0, h0', ih, h1]

theorem mem_mapKeys_mapSet {V : Type} (m : GoMap V) (k k' : String) (v : V) :
    k' ∈ mapKeys (mapSet m k v) ↔ k' = k ∨ k' ∈ mapKeys m := by
  rw [mapKeys_mapSet]
  by_cases h : k ∈ mapKeys m
  · simp only [h, if_true]
    constructor
    · exact Or.inr
    · rintro (rfl | h') <;> assumption
  · simp only [h, if_false, List.mem_append, List.mem_singleton]
    tauto

theorem nodup_mapSet {V : Type} (m : GoMap V) (k : String) (v : V)
    (h : (mapKeys m).Nodup) : (mapKeys (mapSet m k v)).Nodup := by
  rw [mapKeys_mapSet]
  by_cases hk : k ∈ mapKeys m
  · simpa [hk] using h
  · simp only [hk, if_false]
    rw [List.nodup_append]
    refine ⟨h, List.nodup_singleton k, ?_⟩
    intro a ha hb
    simp at hb
    subst hb
    exact hk ha

theorem length_mapSet {V : Type} (m : GoMap V) (k : String) (v : V) :
    (mapSet m k v).length = if k ∈ mapKeys m then m.length else m.length + 1 := by
  have := congrArg List.length (mapKeys_mapSet m k v)
  simp only [mapKeys, List.length_map] at this
  rw [this]
  by_cases h : k ∈ List.map Prod.fst m <;> simp [mapKeys, h]

theorem mapGet_eq_none_iff {V : Type} (m : GoMap V) (k : String) :
    mapGet m k = none ↔ k ∉ mapKeys m := by
  induction m with
  | nil => simp [mapGet, mapKeys]
  | cons e rest ih =>
    obtain ⟨k0, v0⟩ := e
    by_cases h0 : k0 = k
    · simp [mapGet, mapKeys, h0]
    · have h0' : ¬ k = k0 := fun h => h0 h.symm
      simp only [mapKeys] at ih
      simp [mapGet, mapKeys, h0, h0', ih]

theorem mem_of_mapGet {V : Type} (m : GoMap V) (k : String) (v : V)
    (h : mapGet m k = some v) : (k, v) ∈ m := by
  induction m with
  | nil => simp [mapGet] at h
  | cons e rest ih =>
    obtain ⟨k0, v0⟩ := e
    by_cases h0 : k0 = k
    · simp [mapGet, h0] at h
      simp [h0, h]
    · simp [mapGet, h0] at h
      exact List.mem_cons_of_mem _ (ih h)

theorem mapGet_of_mem {V : Type} (m : GoMap V) (k : String) (v : V)
    (hnd : (mapKeys m).Nodup) (h : (k, v) ∈ m) : mapGet m k = some v := by
  induction m with
  | nil => simp at h
  | cons e rest ih =>
    obtain ⟨k0, v0⟩ := e
    simp only [mapKeys, List.map_cons, List.nodup_cons] at hnd
    rcases List.mem_cons.1 h with h1 | h1
    · injection h1 with h2 h3
      simp [mapGet, h2, h3]
    · have hk : k ∈ List.map Prod.fst rest := List.mem_map.2 ⟨(k, v), h1, rfl⟩
      have h0 : k0 ≠ k := fun h => hnd.1 (h ▸ hk)
      simp only [mapGet, h0, if_false]
      exact ih hnd.2 h1

theorem mem_mapKeys_of_mapGet {V : Type} (m : GoMap V) (k : String) (v : V)
    (h : mapGet m k = some v) : k ∈ mapKeys m :=
  List.mem_map.2 ⟨(k, v), mem_of_mapGet m k v h, rfl⟩

theorem mem_mapSet {V : Type} (m : GoMap V) (k : String) (v : V) (e : String × V)
    (h : e ∈ mapSet m k v) : e = (k, v) ∨ e ∈ m := by
  induction m with
  | nil => simpa [mapSet] using h
  | cons e0 rest ih =>
    obtain ⟨k0, v0⟩ := e0
    by_cases h0 : k0 = k
    · simp only [mapSet, h0, if_true, List.mem_cons] at h
      rcases h with h | h
      · exact Or.inl h
      · exact Or.inr (List.mem_cons_of_mem _ h)
    · simp only [mapSet, h0, if_false, List.mem_cons] at h
      rcases h with h | h
      · exact Or.inr (h ▸ List.mem_cons_self _ _)
      · rcases ih h with h | h
        · exact Or.inl h
        · exact Or.inr (List.mem_cons_of_mem _ h)

/-! ## One pass of the loop -/

theorem nameit_fst_ne_empty (t n : String) (i : Nat) : (nameit t n i).1 ≠ "" := by
  intro h
  have := congrArg String.data h
  simp [nameit, String.data_append] at this

theorem nameit_snd (t n : String) (i : Nat) : (nameit t n i).2 = [] := rfl

theorem toProtosLoop_nil (name : String) (res : SchemaSet) (c : Nat) :
    toProtosLoop name [] res c = res := by
  rw [toProtosLoop]

/-- A key holding a non-empty object: the reference line is stored, then the
messages of the nested object are merged in. -/
theorem toProtosLoop_object (name k : String) (e : String × GoValue) (m rest : GoMap GoValue)
    (res : SchemaSet) (c : Nat) :
    toProtosLoop name ((k, .object (e :: m)) :: rest) res c =
      toProtosLoop name rest
        (mergemaps (setField res name k (refField k k c)) (toProtos k (e :: m))) (c + 1) := by
  rw [toProtosLoop]
  simp [typeWithNameAndIndex]

/-- A key for which `typeWithNameAndIndex` returns neither text nor map: nothing is stored. -/
theorem toProtosLoop_skip (name k : String) (v : GoValue) (rest : GoMap GoValue)
    (res : SchemaSet) (c : Nat) (h : typeWithNameAndIndex k v c = ("", [])) :
    toProtosLoop name ((k, v) :: rest) res c = toProtosLoop name rest res (c + 1) := by
  rw [toProtosLoop]
  simp [h]

/-- A key for which `typeWithNameAndIndex` returns a text and an empty map: the text is stored. -/
theorem toProtosLoop_scalar (name k : String) (v : GoValue) (rest : GoMap GoValue)
    (res : SchemaSet) (c : Nat) (h2 : (typeWithNameAndIndex k v c).2 = [])
    (h1 : (typeWithNameAndIndex k v c).1 ≠ "") :
    toProtosLoop name ((k, v) :: rest) res c =
      toProtosLoop name rest (setField res name k (typeWithNameAndIndex k v c).1) (c + 1) := by
  rw [toProtosLoop]
  simp [h1, h2]

/-- The three kinds of value the loop tells apart. -/
theorem value_kind (k : String) (v : GoValue) (c : Nat) :
    (∃ e m, v = .object (e :: m)) ∨ typeWithNameAndIndex k v c = ("", []) ∨
      ((typeWithNameAndIndex k v c).2 = [] ∧ (typeWithNameAndIndex k v c).1 ≠ "") := by
  cases v with
  | object m =>
    cases m with
    | nil => exact Or.inr (Or.inl rfl)
    | cons e m => exact Or.inl ⟨e, m, rfl⟩
  | slice xs => exact Or.inr (Or.inl rfl)
  | int n => exact Or.inr (Or.inl rfl)
  | str s => exact Or.inr (Or.inr ⟨rfl, nameit_fst_ne_empty _ _ _⟩)
  | int32 n => exact Or.inr (Or.inr ⟨rfl, nameit_fst_ne_empty _ _ _⟩)
  | int64 n => exact Or.inr (Or.inr ⟨rfl, nameit_fst_ne_empty _ _ _⟩)
  | float32 n => exact Or.inr (Or.inr ⟨rfl, nameit_fst_ne_empty _ _ _⟩)
  | float64 n => exact Or.inr (Or.inr ⟨rfl, nameit_fst_ne_empty _ _ _⟩)
  | bool b => exact Or.inr (Or.inr ⟨rfl, nameit_fst_ne_empty _ _ _⟩)
  | nil => exact Or.inr (Or.inr ⟨rfl, nameit_fst_ne_empty _ _ _⟩)

theorem fieldLine_object (k : String) (e : String × GoValue) (m : GoMap GoValue) (c : Nat) :
    fieldLine k (.object (e :: m)) c = some (refField k k c) := by
  simp [fieldLine, typeWithNameAndIndex]

theorem fieldLine_skip (k : String) (v : GoValue) (c : Nat)
    (h : typeWithNameAndIndex k v c = ("", [])) : fieldLine k v c = none := by
  simp [fieldLine, h]

theorem fieldLine_scalar (k : String) (v : GoValue) (c : Nat)
    (h2 : (typeWithNameAndIndex k v c).2 = []) (h1 : (typeWithNameAndIndex k v c).1 ≠ "") :
    fieldLine k v c = some (typeWithNameAndIndex k v c).1 := by
  simp [fieldLine, h1, h2]

theorem nestedObjects_object (k : String) (e : String × GoValue) (m rest : GoMap GoValue) :
    nestedObjects ((k, .object (e :: m)) :: rest) =
      (k, e :: m) :: (nestedObjects (e :: m) ++ nestedObjects rest) := by
  rw [nestedObjects]

theorem nestedObjects_other (k : String) (v : GoValue) (rest : GoMap GoValue)
    (h : ∀ e m, v ≠ .object (e :: m)) :
    nestedObjects ((k, v) :: rest) = nestedObjects rest := by
  cases v with
  | object m =>
    cases m with
    | nil => rw [nestedObjects]
    | cons e m => exact absurd rfl (h e m)
  | _ => rw [nestedObjects] <;> simp

theorem not_object_of_skip (k : String) (v : GoValue) (c : Nat)
    (h : typeWithNameAndIndex k v c = ("", [])) : ∀ e m, v ≠ .object (e :: m) := by
  intro e m hv
  subst hv
  simp [typeWithNameAndIndex] at h

theorem not_object_of_scalar (k : String) (v : GoValue) (c : Nat)
    (h : (typeWithNameAndIndex k v c).2 = []) : ∀ e m, v ≠ .object (e :: m) := by
  intro e m hv
  subst hv
  simp [typeWithNameAndIndex] at h

/-- Structural induction over an object tree: a property holds of an object as
soon as it holds of every object held by one of its keys. -/
theorem tree_induction {P : GoMap GoValue → Prop}
    (h : ∀ obj, (∀ k m, (k, GoValue.object m) ∈ obj → P m) → P obj) : ∀ obj, P obj := by
  intro obj
  induction' hn : sizeOf obj using Nat.strong_induction_on with n ih generalizing obj
  apply h
  intro k m hm
  apply ih (sizeOf m) _ m rfl
  have := List.sizeOf_lt_of_mem hm
  simp at this
  omega

/-! ## Merging and storing -/

theorem nodup_foldSet {V : Type} (l acc : GoMap V) (h : (mapKeys acc).Nodup) :
    (mapKeys (l.foldl (fun r kv => mapSet r kv.1 kv.2) acc)).Nodup := by
  induction l generalizing acc with
  | nil => simpa using h
  | cons e rest ih => exact ih _ (nodup_mapSet acc e.1 e.2 h)

theorem mem_mapKeys_foldSet {V : Type} (l acc : GoMap V) (k : String) :
    k ∈ mapKeys (l.foldl (fun r kv => mapSet r kv.1 kv.2) acc) ↔
      k ∈ mapKeys acc ∨ k ∈ mapKeys l := by
  induction l generalizing acc with
  | nil => simp [mapKeys]
  | cons e rest ih =>
    rw [List.foldl_cons, ih, mem_mapKeys_mapSet]
    simp only [mapKeys, List.map_cons, List.mem_cons]
    tauto

theorem mem_foldSet {V : Type} (l acc : GoMap V) (e : String × V)
    (h : e ∈ l.foldl (fun r kv => mapSet r kv.1 kv.2) acc) : e ∈ acc ∨ e ∈ l := by
  induction l generalizing acc with
  | nil => exact Or.inl (by simpa using h)
  | cons e0 rest ih =>
    rw [List.foldl_cons] at h
    rcases ih _ h with h1 | h1
    · rcases mem_mapSet acc e0.1 e0.2 e h1 with h2 | h2
      · exact Or.inr (h2 ▸ List.mem_cons_self _ _)
      · exact Or.inl h2
    · exact Or.inr (List.mem_cons_of_mem _ h1)

theorem mapGet_foldSet_of_not_mem {V : Type} (l acc : GoMap V) (k : String)
    (h : k ∉ mapKeys l) :
    mapGet (l.foldl (fun r kv => mapSet r kv.1 kv.2) acc) k = mapGet acc k := by
  induction l generalizing acc with
  | nil => rfl
  | cons e rest ih =>
    simp only [mapKeys, List.map_cons, List.mem_cons, not_or] at h
    rw [List.foldl_cons, ih _ h.2, mapGet_mapSet_ne]
    exact fun hk => h.1 hk.symm

theorem mapGet_foldSet_of_mem {V : Type} (l acc : GoMap V) (k : String) (v : V)
    (hnd : (mapKeys l).Nodup) (h : (k, v) ∈ l) :
    mapGet (l.foldl (fun r kv => mapSet r kv.1 kv.2) acc) k = some v := by
  induction l generalizing acc with
  | nil => simp at h
  | cons e rest ih =>
    simp only [mapKeys, List.map_cons, List.nodup_cons] at hnd
    rw [List.foldl_cons]
    rcases List.mem_cons.1 h with h1 | h1
    · subst h1
      rw [mapGet_foldSet_of_not_mem _ _ _ hnd.1, mapGet_mapSet_self]
    · exact ih _ hnd.2 h1

theorem nodup_mergemaps (map1 map2 : SchemaSet) : (mapKeys (mergemaps map1 map2)).Nodup := by
  unfold mergemaps
  exact nodup_foldSet _ _ (nodup_foldSet _ _ List.nodup_nil)

theorem mem_mapKeys_mergemaps (map1 map2 : SchemaSet) (k : String) :
    k ∈ mapKeys (mergemaps map1 map2) ↔ k ∈ mapKeys map1 ∨ k ∈ mapKeys map2 := by
  unfold mergemaps
  simp only [mem_mapKeys_foldSet]
  simp [mapKeys]

theorem mem_mergemaps (map1 map2 : SchemaSet) (e : String × GoMap String)
    (h : e ∈ mergemaps map1 map2) : e ∈ map1 ∨ e ∈ map2 := by
  unfold mergemaps at h
  rcases mem_foldSet _ _ e h with h1 | h1
  · rcases mem_foldSet _ _ e h1 with h2 | h2
    · simp at h2
    · exact Or.inl h2
  · exact Or.inr h1

theorem mapGet_mergemaps_right (map1 map2 : SchemaSet) (k : String) (d : GoMap String)
    (hnd : (mapKeys map2).Nodup) (h : mapGet map2 k = some d) :
    mapGet (mergemaps map1 map2) k = some d := by
  unfold mergemaps
  exact mapGet_foldSet_of_mem _ _ k d hnd (mem_of_mapGet _ _ _ h)

theorem mapGet_mergemaps_left (map1 map2 : SchemaSet) (k : String)
    (hnd : (mapKeys map1).Nodup) (h : mapGet map2 k = none) :
    mapGet (mergemaps map1 map2) k = mapGet map1 k := by
  unfold mergemaps
  rw [mapGet_foldSet_of_not_mem _ _ _ ((mapGet_eq_none_iff _ _).1 h)]
  cases h1 : mapGet map1 k with
  | none =>
    rw [mapGet_foldSet_of_not_mem _ _ _ ((mapGet_eq_none_iff _ _).1 h1)]
    rfl
  | some d => exact mapGet_foldSet_of_mem _ _ k d hnd (mem_of_mapGet _ _ _ h1)

theorem mapKeys_setField (res : SchemaSet) (name k v : String) :
    mapKeys (setField res name k v) = mapKeys res := by
  unfold setField
  cases h : mapGet res name with
  | none => rfl
  | some f =>
    simp only
    rw [mapKeys_mapSet, if_pos (mem_mapKeys_of_mapGet _ _ _ h)]

theorem mapGet_setField_self (res : SchemaSet) (name k v : String) (f : GoMap String)
    (h : mapGet res name = some f) :
    mapGet (setField res name k v) name = some (mapSet f k v) := by
  unfold setField
  simp only [h]
  exact mapGet_mapSet_self _ _ _

theorem mapGet_setField_ne (res : SchemaSet) (name k v n : String) (h : name ≠ n) :
    mapGet (setField res name k v) n = mapGet res n := by
  unfold setField
  cases h1 : mapGet res name with
  | none => rfl
  | some f => exact mapGet_mapSet_ne _ _ h

theorem mem_setField_ne (res : SchemaSet) (name k v : String) (e : String × GoMap String)
    (h : e ∈ setField res name k v) (hne : e.1 ≠ name) : e ∈ res := by
  unfold setField at h
  cases h1 : mapGet res name with
  | none => simpa [h1] using h
  | some f =>
    simp only [h1] at h
    rcases mem_mapSet _ _ _ _ h with h2 | h2
    · exact absurd (by rw [h2]) hne
    · exact h2

/-! ## The message names of a result -/

theorem nestedNames_object (k : String) (e : String × GoValue) (m rest : GoMap GoValue) :
    nestedNames ((k, .object (e :: m)) :: rest) =
      k :: (nestedNames (e :: m) ++ nestedNames rest) := by
  simp [nestedNames, nestedObjects_object]

theorem nestedNames_other (k : String) (v : GoValue) (rest : GoMap GoValue)
    (h : ∀ e m, v ≠ .object (e :: m)) :
    nestedNames ((k, v) :: rest) = nestedNames rest := by
  simp [nestedNames, nestedObjects_other k v rest h]

/-- The loop keeps the message names pairwise distinct. -/
theorem nodup_toProtosLoop (name : String) (rest : GoMap GoValue) :
    ∀ (res : SchemaSet) (c : Nat), (mapKeys res).Nodup →
      (mapKeys (toProtosLoop name rest res c)).Nodup := by
  induction rest with
  | nil => intro res c h; rwa [toProtosLoop_nil]
  | cons kv rest ih =>
    intro res c h
    obtain ⟨k, v⟩ := kv
    rcases value_kind k v c with ⟨e, m, rfl⟩ | hs | ⟨h2, h1⟩
    · rw [toProtosLoop_object]
      exact ih _ _ (nodup_mergemaps _ _)
    · rw [toProtosLoop_skip _ _ _ _ _ _ hs]
      exact ih _ _ h
    · rw [toProtosLoop_scalar _ _ _ _ _ _ h2 h1]
      exact ih _ _ (by rw [mapKeys_setField]; exact h)

/-- The message names of a result of `toProtos` are pairwise distinct. -/
theorem nodup_toProtos (name : String) (obj : GoMap GoValue) :
    (mapKeys (toProtos name obj)).Nodup := by
  rw [toProtos]
  exact nodup_toProtosLoop name obj _ _ (by simp [mapKeys])

theorem mem_mapKeys_toProtosLoop (name : String) (rest : GoMap GoValue)
    (ih : ∀ k m, (k, GoValue.object m) ∈ rest →
      ∀ name n, n ∈ mapKeys (toProtos name m) ↔ n = name ∨ n ∈ nestedNames m) :
    ∀ (res : SchemaSet) (c : Nat) (n : String),
      n ∈ mapKeys (toProtosLoop name rest res c) ↔ n ∈ mapKeys res ∨ n ∈ nestedNames rest := by
  induction rest with
  | nil => intro res c n; simp [toProtosLoop_nil, nestedNames, nestedObjects]
  | cons kv rest ihr =>
    intro res c n
    obtain ⟨k, v⟩ := kv
    have ih' : ∀ k m, (k, GoValue.object m) ∈ rest →
        ∀ name n, n ∈ mapKeys (toProtos name m) ↔ n = name ∨ n ∈ nestedNames m :=
      fun k m hm => ih k m (List.mem_cons_of_mem _ hm)
    rcases value_kind k v c with ⟨e, m, rfl⟩ | hs | ⟨h2, h1⟩
    · rw [toProtosLoop_object, ihr ih', mem_mapKeys_mergemaps, mapKeys_setField,
        ih k (e :: m) (List.mem_cons_self _ _), nestedNames_object]
      simp only [List.mem_cons, List.mem_append]
      tauto
    · rw [toProtosLoop_skip _ _ _ _ _ _ hs, ihr ih',
        nestedNames_other k v rest (not_object_of_skip k v c hs)]
    · rw [toProtosLoop_scalar _ _ _ _ _ _ h2 h1, ihr ih', mapKeys_setField,
        nestedNames_other k v rest (not_object_of_scalar k v c h2)]

/-- The names defined by `toProtos`: the message name and the keys of the
non-empty nested objects. -/
theorem mem_mapKeys_toProtos (obj : GoMap GoValue) :
    ∀ (name n : String), n ∈ mapKeys (toProtos name obj) ↔ n = name ∨ n ∈ nestedNames obj := by
  induction obj using tree_induction with
  | h obj ih =>
    intro name n
    rw [toProtos, mem_mapKeys_toProtosLoop name obj ih]
    simp [mapKeys]

/-- The loop never loses the message it writes to. -/
theorem toProtosLoop_defines (name : String) (rest : GoMap GoValue) (res : SchemaSet) (c : Nat)
    (h : name ∈ mapKeys res) : name ∈ mapKeys (toProtosLoop name rest res c) :=
  (mem_mapKeys_toProtosLoop name rest (fun _ m _ => mem_mapKeys_toProtos m) res c name).2
    (Or.inl h)

/-- A key that holds a non-empty object is among the nested names. -/
theorem mem_nestedNames_of_mem (obj : GoMap GoValue) (k : String) (e : String × GoValue)
    (m : GoMap GoValue) : (k, GoValue.object (e :: m)) ∈ obj → k ∈ nestedNames obj := by
  induction obj with
  | nil => intro h; simp at h
  | cons kv rest ih =>
    intro h
    obtain ⟨k0, v0⟩ := kv
    rcases List.mem_cons.1 h with h | h
    · injection h with h1 h2
      subst h1 h2
      simp [nestedNames_object]
    · have hr := ih h
      by_cases hv : ∃ e' m', v0 = .object (e' :: m')
      · obtain ⟨e', m', rfl⟩ := hv
        simp [nestedNames_object, hr]
      · rw [nestedNames_other k0 v0 rest (fun e' m' h' => hv ⟨e', m', h'⟩)]
        exact hr

/-- Every pass of the loop of `toProtos` starts from a message set that defines
the message it writes to. -/
theorem toProtos_pass_defines (name : String) (pre : GoMap GoValue) :
    name ∈ mapKeys (toProtosLoop name pre [(name, [])] 0) :=
  toProtosLoop_defines name pre _ 0 (by simp [mapKeys])

/-! ## The fields of a message that nothing overwrites -/

theorem mapSet_of_not_mem {V : Type} (m : GoMap V) (k : String) (v : V)
    (h : k ∉ mapKeys m) : mapSet m k v = m ++ [(k, v)] := by
  induction m with
  | nil => rfl
  | cons e rest ih =>
    obtain ⟨k0, v0⟩ := e
    simp only [mapKeys, List.map_cons, List.mem_cons, not_or] at h
    have h0 : ¬ k0 = k := fun hk => h.1 hk.symm
    simp only [mapSet, h0, if_false, List.cons_append]
    rw [ih h.2]

theorem mapGet_toProtos_of_not_mem (k name : String) (m : GoMap GoValue)
    (h1 : name ≠ k) (h2 : name ∉ nestedNames m) : mapGet (toProtos k m) name = none := by
  rw [mapGet_eq_none_iff, mem_mapKeys_toProtos]
  exact fun h => h.elim h1 h2

/-- The message the loop writes to, when no nested object carries its name:
the fields it held, followed by the lines of the remaining keys. -/
theorem mapGet_toProtosLoop_self (name : String) (rest : GoMap GoValue) :
    ∀ (res : SchemaSet) (c : Nat) (f : GoMap String), (mapKeys res).Nodup →
      mapGet res name = some f → name ∉ nestedNames rest → (mapKeys rest).Nodup →
      (∀ k ∈ mapKeys rest, k ∉ mapKeys f) →
      mapGet (toProtosLoop name rest res c) name = some (f ++ fieldLines rest c) := by
  induction rest with
  | nil => intro res c f _ hf _ _ _; simpa [toProtosLoop_nil, fieldLines] using hf
  | cons kv rest ih =>
    intro res c f hnd hf hns hk hdisj
    obtain ⟨k, v⟩ := kv
    have hk' : (mapKeys rest).Nodup := by
      simp only [mapKeys, List.map_cons, List.nodup_cons] at hk
      exact hk.2
    have hkrest : k ∉ mapKeys rest := by
      simp only [mapKeys, List.map_cons, List.nodup_cons] at hk
      exact hk.1
    have hkf : k ∉ mapKeys f := hdisj k (by simp [mapKeys])
    have hdisj' : ∀ (line : String), ∀ k' ∈ mapKeys rest, k' ∉ mapKeys (f ++ [(k, line)]) := by
      intro line k' hk'mem
      have h1 : k' ∉ mapKeys f := hdisj k' (by
        simp only [mapKeys, List.map_cons, List.mem_cons]
        exact Or.inr hk'mem)
      have h2 : k' ≠ k := fun h => hkrest (h ▸ hk'mem)
      simpa [mapKeys, h2] using h1
    rcases value_kind k v c with ⟨e, m, rfl⟩ | hs | ⟨h2, h1⟩
    · rw [nestedNames_object] at hns
      simp only [List.mem_cons, List.mem_append, not_or] at hns
      rw [toProtosLoop_object]
      have hget : mapGet (mergemaps (setField res name k (refField k k c)) (toProtos k (e :: m)))
          name = some (f ++ [(k, refField k k c)]) := by
        rw [mapGet_mergemaps_left _ _ _ (by rw [mapKeys_setField]; exact hnd)
          (mapGet_toProtos_of_not_mem k name (e :: m) hns.1 hns.2.1),
          mapGet_setField_self _ _ _ _ f hf, mapSet_of_not_mem f k _ hkf]
      rw [ih _ _ _ (nodup_mergemaps _ _) hget hns.2.2 hk' (hdisj' _)]
      simp [fieldLines, fieldLine_object]
    · rw [nestedNames_other k v rest (not_object_of_skip k v c hs)] at hns
      rw [toProtosLoop_skip _ _ _ _ _ _ hs, ih _ _ _ hnd hf hns hk'
        (fun k' hk'mem => hdisj k' (by
          simp only [mapKeys, List.map_cons, List.mem_cons]
          exact Or.inr hk'mem))]
      simp [fieldLines, fieldLine_skip k v c hs]
    · rw [nestedNames_other k v rest (not_object_of_scalar k v c h2)] at hns
      rw [toProtosLoop_scalar _ _ _ _ _ _ h2 h1]
      have hget : mapGet (setField res name k (typeWithNameAndIndex k v c).1) name =
          some (f ++ [(k, (typeWithNameAndIndex k v c).1)]) := by
        rw [mapGet_setField_self _ _ _ _ f hf, mapSet_of_not_mem f k _ hkf]
      rw [ih _ _ _ (by rw [mapKeys_setField]; exact hnd) hget hns hk' (hdisj' _)]
      simp [fieldLines, fieldLine_scalar k v c h2 h1]

/-- The message of the object itself, when its keys are pairwise distinct and
no nested object carries the message name: one line per key that yields one,
in processing order. -/
theorem mapGet_toProtos_self (name : String) (obj : GoMap GoValue)
    (hns : name ∉ nestedNames obj) (hk : (mapKeys obj).Nodup) :
    mapGet (toProtos name obj) name = some (fieldLines obj 0) := by
  rw [toProtos, mapGet_toProtosLoop_self name obj _ 0 [] (by simp [mapKeys])
    (by simp [mapGet]) hns hk (by simp [mapKeys])]
  simp

/-! ## The object a message was inferred from -/

theorem mem_toProtosLoop_origin (name : String) (rest : GoMap GoValue)
    (ih : ∀ k m, (k, GoValue.object m) ∈ rest → ∀ name, NoShadow name m → KeysDistinct m →
      ∀ e ∈ toProtos name m, ∃ o, (e.1, o) ∈ (name, m) :: nestedObjects m ∧ e.2 = fieldLines o 0)
    (hns : ∀ e ∈ nestedObjects rest, e.1 ∉ nestedNames e.2)
    (hkd : ∀ e ∈ nestedObjects rest, (mapKeys e.2).Nodup) :
    ∀ (res : SchemaSet) (c : Nat) (e : String × GoMap String),
      e ∈ toProtosLoop name rest res c → e.1 ≠ name →
      e ∈ res ∨ ∃ o, (e.1, o) ∈ nestedObjects rest ∧ e.2 = fieldLines o 0 := by
  induction rest with
  | nil => intro res c e he _; exact Or.inl (by simpa [toProtosLoop_nil] using he)
  | cons kv rest ihr =>
    intro res c e he hne
    obtain ⟨k, v⟩ := kv
    have ih' : ∀ k m, (k, GoValue.object m) ∈ rest → ∀ name, NoShadow name m → KeysDistinct m →
        ∀ e ∈ toProtos name m, ∃ o, (e.1, o) ∈ (name, m) :: nestedObjects m ∧
          e.2 = fieldLines o 0 :=
      fun k m hm => ih k m (List.mem_cons_of_mem _ hm)
    rcases value_kind k v c with ⟨e0, m, rfl⟩ | hs | ⟨h2, h1⟩
    · rw [nestedObjects_object] at hns hkd
      rw [toProtosLoop_object] at he
      have hns' : ∀ e ∈ nestedObjects rest, e.1 ∉ nestedNames e.2 :=
        fun e he => hns e (by simp [he])
      have hkd' : ∀ e ∈ nestedObjects rest, (mapKeys e.2).Nodup :=
        fun e he => hkd e (by simp [he])
      rcases ihr ih' hns' hkd' _ _ e he hne with h | ⟨o, ho, hf⟩
      · rcases mem_mergemaps _ _ e h with h | h
        · exact Or.inl (mem_setField_ne _ _ _ _ e h hne)
        · have hshadow : NoShadow k (e0 :: m) :=
            ⟨hns (k, e0 :: m) (by simp), fun e he => hns e (by simp [he])⟩
          have hkeys : KeysDistinct (e0 :: m) :=
            ⟨hkd (k, e0 :: m) (by simp), fun e he => hkd e (by simp [he])⟩
          obtain ⟨o, ho, hf⟩ := ih k (e0 :: m) (List.mem_cons_self _ _) k hshadow hkeys e h
          refine Or.inr ⟨o, ?_, hf⟩
          rw [nestedObjects_object]
          rcases List.mem_cons.1 ho with ho | ho
          · rw [ho]; exact List.mem_cons_self _ _
          · exact List.mem_cons_of_mem _ (List.mem_append_left _ ho)
      · refine Or.inr ⟨o, ?_, hf⟩
        rw [nestedObjects_object]
        exact List.mem_cons_of_mem _ (List.mem_append_right _ ho)
    · rw [nestedObjects_other k v rest (not_object_of_skip k v c hs)] at hns hkd ⊢
      rw [toProtosLoop_skip _ _ _ _ _ _ hs] at he
      exact ihr ih' hns hkd _ _ e he hne
    · rw [nestedObjects_other k v rest (not_object_of_scalar k v c h2)] at hns hkd ⊢
      rw [toProtosLoop_scalar _ _ _ _ _ _ h2 h1] at he
      rcases ihr ih' hns hkd _ _ e he hne with h | h
      · exact Or.inl (mem_setField_ne _ _ _ _ e h hne)
      · exact Or.inr h

/-- Without shadowing, every message of a result is the list of lines of one
object of the tree: the root object for the root name, a nested object held by
key `n` for any other name `n`. -/
theorem toProtos_origin (obj : GoMap GoValue) :
    ∀ name, NoShadow name obj → KeysDistinct obj →
      ∀ e ∈ toProtos name obj, ∃ o, (e.1, o) ∈ (name, obj) :: nestedObjects obj ∧
        e.2 = fieldLines o 0 := by
  induction obj using tree_induction with
  | h obj ih =>
    intro name hns hkd e he
    by_cases hne : e.1 = name
    · refine ⟨obj, by simp [hne], ?_⟩
      have h1 := mapGet_of_mem _ e.1 e.2 (nodup_toProtos name obj) he
      rw [hne, mapGet_toProtos_self name obj hns.1 hkd.1] at h1
      exact (Option.some.inj h1).symm
    · rw [toProtos] at he
      rcases mem_toProtosLoop_origin name obj ih hns.2 hkd.2 _ _ e he hne with h | ⟨o, ho, hf⟩
      · simp only [List.mem_singleton] at h
        exact absurd (by rw [h]) hne
      · exact ⟨o, List.mem_cons_of_mem _ ho, hf⟩

/-! ## The number written in a field line -/

theorem digitChar_spec : ∀ d, d < 10 →
    ((Nat.digitChar d).toNat - 48 = d ∧ (Nat.digitChar d).isDigit = true) := by
  decide

theorem digitsValue_append (ds : List Char) (c : Char) :
    digitsValue (ds ++ [c]) = 10 * digitsValue ds + (c.toNat - 48) := by
  simp [digitsValue, List.foldl_append]

theorem toDigitsCore_spec : ∀ (fuel n : Nat) (ds : List Char), n < fuel →
    ∃ L, Nat.toDigitsCore 10 fuel n ds = L ++ ds ∧ L ≠ [] ∧
      (∀ c ∈ L, c.isDigit = true) ∧ digitsValue L = n := by
  intro fuel
  induction fuel with
  | zero => intro n ds h; omega
  | succ fuel ih =>
    intro n ds h
    have hd := digitChar_spec (n % 10) (Nat.mod_lt _ (by decide))
    by_cases h0 : n / 10 = 0
    · refine ⟨[Nat.digitChar (n % 10)], ?_, by simp, ?_, ?_⟩
      · simp [Nat.toDigitsCore, h0]
      · intro c hc
        simp only [List.mem_singleton] at hc
        rw [hc]; exact hd.2
      · have : digitsValue [Nat.digitChar (n % 10)] = (Nat.digitChar (n % 10)).toNat - 48 := by
          simp [digitsValue]
        rw [this, hd.1]
        omega
    · obtain ⟨L, hL, _, hdig, hval⟩ := ih (n / 10) (Nat.digitChar (n % 10) :: ds) (by omega)
      refine ⟨L ++ [Nat.digitChar (n % 10)], ?_, by simp, ?_, ?_⟩
      · simp [Nat.toDigitsCore, h0, hL]
      · intro c hc
        rcases List.mem_append.1 hc with hc | hc
        · exact hdig c hc
        · simp only [List.mem_singleton] at hc
          rw [hc]; exact hd.2
      · rw [digitsValue_append, hval, hd.1]
        omega

/-- The decimal text of a number: digits only, at least one, and their value is the number. -/
theorem toString_nat_spec (i : Nat) :
    (toString i).data ≠ [] ∧ (∀ c ∈ (toString i).data, c.isDigit = true) ∧
      digitsValue (toString i).data = i := by
  obtain ⟨L, hL, hne, hdig, hval⟩ := toDigitsCore_spec (i + 1) i [] (Nat.lt_succ_self i)
  have : (toString i).data = L := by
    show (Nat.repr i).data = L
    simp [Nat.repr, Nat.toDigits, hL, List.asString]
  rw [this]
  exact ⟨hne, hdig, hval⟩

theorem takeWhile_append_stop {α : Type} (p : α → Bool) (xs : List α) (y : α) (ys : List α)
    (hx : ∀ x ∈ xs, p x = true) (hy : p y = false) :
    (xs ++ y :: ys).takeWhile p = xs := by
  induction xs with
  | nil => simp [List.takeWhile, hy]
  | cons x xs ih =>
    have hx0 : p x = true := hx x (List.mem_cons_self _ _)
    simp only [List.cons_append, List.takeWhile_cons, hx0, if_true]
    rw [ih (fun x hx' => hx x (List.mem_cons_of_mem _ hx'))]

theorem dropWhile_blank_digits (L rest : List Char) (hne : L ≠ [])
    (hdig : ∀ c ∈ L, c.isDigit = true) :
    (L ++ rest).dropWhile (fun c => c == ' ') = L ++ rest := by
  cases L with
  | nil => exact absurd rfl hne
  | cons x xs =>
    have hx : x.isDigit = true := hdig x (List.mem_cons_self _ _)
    have hb : (x == ' ') = false := by
      cases hxb : (x == ' ') with
      | false => rfl
      | true =>
        have : x = ' ' := by simpa using hxb
        rw [this] at hx
        exact absurd hx (by decide)
    simp [List.dropWhile, hb]

/-- A line that ends in ` = <number>` and then `;` or ` ;` carries that number. -/
theorem fieldNumber_line (pre : String) (i : Nat) :
    fieldNumber (pre ++ " = " ++ toString i ++ " ;") = some i ∧
      fieldNumber (pre ++ " = " ++ toString i ++ ";") = some i := by
  obtain ⟨hne, hdig, hval⟩ := toString_nat_spec i
  have hne' : (toString i).data.reverse ≠ [] := by simpa using hne
  have hdig' : ∀ c ∈ (toString i).data.reverse, c.isDigit = true :=
    fun c hc => hdig c (List.mem_reverse.1 hc)
  have htake : ∀ tail : List Char,
      ((toString i).data.reverse ++ ' ' :: tail).takeWhile Char.isDigit =
        (toString i).data.reverse :=
    fun tail => takeWhile_append_stop _ _ _ _ hdig' (by decide)
  have hempty : (toString i).data.isEmpty = false := by
    cases h : (toString i).data with
    | nil => exact absurd h hne
    | cons _ _ => rfl
  constructor
  · have hrev : (pre ++ " = " ++ toString i ++ " ;").data.reverse =
        ';' :: ' ' :: ((toString i).data.reverse ++ ' ' :: ('=' :: ' ' :: pre.data.reverse)) := by
      simp [String.data_append]
    unfold fieldNumber
    rw [hrev]
    simp only
    have hdrop : (' ' :: ((toString i).data.reverse ++ ' ' :: ('=' :: ' ' :: pre.data.reverse))).dropWhile
        (fun c => c == ' ') =
        (toString i).data.reverse ++ ' ' :: ('=' :: ' ' :: pre.data.reverse) := by
      rw [List.dropWhile_cons]
      simp only [beq_self_eq_true, if_true]
      exact dropWhile_blank_digits _ _ hne' hdig'
    rw [hdrop, htake, List.reverse_reverse, hempty, hval]
    simp
  · have hrev : (pre ++ " = " ++ toString i ++ ";").data.reverse =
        ';' :: ((toString i).data.reverse ++ ' ' :: ('=' :: ' ' :: pre.data.reverse)) := by
      simp [String.data_append]
    unfold fieldNumber
    rw [hrev]
    simp only
    rw [dropWhile_blank_digits _ _ hne' hdig', htake, List.reverse_reverse, hempty, hval]
    simp

theorem fieldNumber_nameit (t n : String) (i : Nat) : fieldNumber (nameit t n i).1 = some i := by
  have := (fieldNumber_line ("\t" ++ t ++ " " ++ n) i).1
  simpa [nameit, String.append_assoc] using this

theorem fieldNumber_refField (n k : String) (i : Nat) : fieldNumber (refField n k i) = some i := by
  have := (fieldNumber_line ("\t" ++ n ++ " " ++ k) i).2
  simpa [refField, String.append_assoc] using this

/-! ## The lines of an object -/

theorem fieldNumber_fieldLine (k : String) (v : GoValue) (c : Nat) (line : String)
    (h : fieldLine k v c = some line) : fieldNumber line = some c := by
  rcases value_kind k v c with ⟨e, m, rfl⟩ | hs | ⟨h2, h1⟩
  · rw [fieldLine_object] at h
    rw [← Option.some.inj h]
    exact fieldNumber_refField _ _ _
  · rw [fieldLine_skip k v c hs] at h
    exact absurd h (by simp)
  · rw [fieldLine_scalar k v c h2 h1] at h
    rw [← Option.some.inj h]
    cases v <;> first
      | exact fieldNumber_nameit _ _ _
      | exact absurd rfl h1

/-- A key yields no line exactly when its value is an array, a plain `int` or an empty object. -/
theorem fieldLine_eq_none_iff (k : String) (v : GoValue) (c : Nat) :
    fieldLine k v c = none ↔ (isArray v || isPlainInt v || isEmptyObject v) = true := by
  rcases value_kind k v c with ⟨e, m, rfl⟩ | hs | ⟨h2, h1⟩
  · simp [fieldLine_object, isArray, isPlainInt, isEmptyObject]
  · simp only [fieldLine_skip k v c hs, true_iff]
    cases v with
    | object m =>
      cases m with
      | nil => rfl
      | cons e m => simp [typeWithNameAndIndex] at hs
    | slice xs => rfl
    | int n => rfl
    | _ => exact absurd (congrArg Prod.fst hs) (nameit_fst_ne_empty _ _ _)
  · simp only [fieldLine_scalar k v c h2 h1]
    cases v with
    | object m =>
      cases m with
      | nil => exact absurd rfl h1
      | cons e m => simp [typeWithNameAndIndex] at h2
    | slice xs => exact absurd rfl h1
    | int n => exact absurd rfl h1
    | _ => simp [isArray, isPlainInt, isEmptyObject]

/-- Every line of an object is the line of one of its keys, numbered by the position of the key. -/
theorem mem_fieldLines (obj : GoMap GoValue) :
    ∀ (c : Nat) (e : String × String), e ∈ fieldLines obj c →
      ∃ j v, obj[j]? = some (e.1, v) ∧ fieldLine e.1 v (c + j) = some e.2 := by
  induction obj with
  | nil => intro c e he; simp [fieldLines] at he
  | cons kv rest ih =>
    intro c e he
    obtain ⟨k, v⟩ := kv
    have hrest : e ∈ fieldLines rest (c + 1) →
        ∃ j v', ((k, v) :: rest)[j]? = some (e.1, v') ∧ fieldLine e.1 v' (c + j) = some e.2 := by
      intro h
      obtain ⟨j, v', hj, hl⟩ := ih (c + 1) e h
      exact ⟨j + 1, v', by simpa using hj, by rw [← hl]; congr 1; omega⟩
    cases hfl : fieldLine k v c with
    | none =>
      simp only [fieldLines, hfl] at he
      exact hrest he
    | some line =>
      simp only [fieldLines, hfl, List.mem_cons] at he
      rcases he with he | he
      · exact ⟨0, v, by simp [he], by simp [he, hfl]⟩
      · exact hrest he

/-- The line of a key that yields one is among the lines of the object. -/
theorem fieldLines_of_getElem (obj : GoMap GoValue) :
    ∀ (c j : Nat) (k : String) (v : GoValue) (line : String), obj[j]? = some (k, v) →
      fieldLine k v (c + j) = some line → (k, line) ∈ fieldLines obj c := by
  induction obj with
  | nil => intro c j k v line hj; simp at hj
  | cons kv rest ih =>
    intro c j k v line hj hl
    obtain ⟨k0, v0⟩ := kv
    cases j with
    | zero =>
      simp only [List.getElem?_cons_zero, Option.some.injEq, Prod.mk.injEq] at hj
      obtain ⟨rfl, rfl⟩ := hj
      simp only [Nat.add_zero] at hl
      simp [fieldLines, hl]
    | succ j =>
      simp only [List.getElem?_cons_succ] at hj
      have hl' : fieldLine k v (c + 1 + j) = some line := by
        rw [← hl]; congr 1; omega
      have := ih (c + 1) j k v line hj hl'
      cases hfl : fieldLine k0 v0 c with
      | none => simpa [fieldLines, hfl] using this
      | some l0 => simp [fieldLines, hfl, this]

theorem mapKeys_fieldLines_sublist (obj : GoMap GoValue) :
    ∀ c, (mapKeys (fieldLines obj c)).Sublist (mapKeys obj) := by
  induction obj with
  | nil => intro c; simp [fieldLines, mapKeys]
  | cons kv rest ih =>
    intro c
    obtain ⟨k, v⟩ := kv
    cases hfl : fieldLine k v c with
    | none =>
      simp only [fieldLines, hfl, mapKeys, List.map_cons]
      exact List.Sublist.cons _ (ih (c + 1))
    | some line =>
      simp only [fieldLines, hfl, mapKeys, List.map_cons]
      exact List.Sublist.cons₂ _ (ih (c + 1))

/-- With distinct keys, the line stored under a key is the line of that key at its position. -/
theorem mapGet_fieldLines (obj : GoMap GoValue) (hk : (mapKeys obj).Nodup) (j : Nat)
    (k : String) (v : GoValue) (line : String) (hj : obj[j]? = some (k, v))
    (hl : fieldLine k v j = some line) : mapGet (fieldLines obj 0) k = some line := by
  apply mapGet_of_mem _ _ _ ((mapKeys_fieldLines_sublist obj 0).nodup hk)
  exact fieldLines_of_getElem obj 0 j k v line hj (by simpa using hl)

/-- The number of lines plus the number of skipped keys is the number of keys. -/
theorem length_fieldLines (obj : GoMap GoValue) :
    ∀ c, (fieldLines obj c).length +
      obj.countP (fun kv => isArray kv.2 || isPlainInt kv.2 || isEmptyObject kv.2) =
        obj.length := by
  induction obj with
  | nil => intro c; simp [fieldLines]
  | cons kv rest ih =>
    intro c
    obtain ⟨k, v⟩ := kv
    have := ih (c + 1)
    cases hfl : fieldLine k v c with
    | none =>
      have hs := (fieldLine_eq_none_iff k v c).1 hfl
      simp only [fieldLines, hfl, List.countP_cons, hs, if_true, List.length_cons]
      omega
    | some line =>
      have hs : (isArray v || isPlainInt v || isEmptyObject v) = false := by
        cases hb : (isArray v || isPlainInt v || isEmptyObject v) with
        | false => rfl
        | true => rw [(fieldLine_eq_none_iff k v c).2 hb] at hfl; exact absurd hfl (by simp)
      simp only [fieldLines, hfl, List.countP_cons, hs, List.length_cons]
      simp only [Bool.false_eq_true, if_false]
      omega

/-- The numbers written in the lines of an object increase strictly along the lines. -/
theorem fieldLines_numbers (obj : GoMap GoValue) :
    ∀ c, (∀ e ∈ fieldLines obj c, ∃ i, fieldNumber e.2 = some i ∧ c ≤ i) ∧
      ((fieldLines obj c).map (fun e => fieldNumber e.2)).Nodup := by
  induction obj with
  | nil => intro c; simp [fieldLines]
  | cons kv rest ih =>
    intro c
    obtain ⟨k, v⟩ := kv
    obtain ⟨h1, h2⟩ := ih (c + 1)
    have h1' : ∀ e ∈ fieldLines rest (c + 1), ∃ i, fieldNumber e.2 = some i ∧ c ≤ i := by
      intro e he
      obtain ⟨i, hi, hci⟩ := h1 e he
      exact ⟨i, hi, by omega⟩
    cases hfl : fieldLine k v c with
    | none =>
      simp only [fieldLines, hfl]
      exact ⟨h1', h2⟩
    | some line =>
      have hn := fieldNumber_fieldLine k v c line hfl
      simp only [fieldLines, hfl, List.map_cons, List.nodup_cons, List.mem_cons]
      refine ⟨?_, ?_, h2⟩
      · rintro e (rfl | he)
        · exact ⟨c, hn, le_refl c⟩
        · exact h1' e he
      · intro hmem
        obtain ⟨e, he, heq⟩ := List.mem_map.1 hmem
        obtain ⟨i, hi, hci⟩ := h1 e he
        rw [hn, hi] at heq
        have := Option.some.inj heq
        omega

/-! ## Decoding -/

theorem float64Limit_gt : (1000000 : ℚ) < float64Limit := by
  norm_num [float64Limit]

/-- A number of small absolute value is within the float64 range. -/
theorem fitsFloat64_of_small (q : ℚ) (h1 : -1000000 ≤ q) (h2 : q ≤ 1000000) :
    fitsFloat64 q = true := by
  have h := float64Limit_gt
  simp only [fitsFloat64, decide_eq_true_eq]
  constructor <;> linarith

/-- The number `10^999` is outside the float64 range. -/
theorem fitsFloat64_huge : fitsFloat64 (10 ^ 999) = false := by
  norm_num [fitsFloat64, float64Limit]

theorem decode_number (q : ℚ) (h : fitsFloat64 q = true) :
    decode (.number q) = .ok (.float64 q) := by
  simp [decode, h]

theorem decode_object (members : List (String × Json)) (obj : GoMap GoValue)
    (h : decodeMembers members [] = .ok obj) : decode (.object members) = .ok (.object obj) := by
  simp [decode, h]

/-- A document on which decoding fails: `unmarshal` returns the error of the decoder. -/
theorem unmarshal_error (j : Json) (e : Error) (h : decode j = .error e) :
    unmarshal (.document j) = ([], some e) := by
  simp [unmarshal, h]

/-- A document whose root decodes to an object: `unmarshal` returns that object. -/
theorem unmarshal_object (members : List (String × Json)) (obj : GoMap GoValue)
    (h : decodeMembers members [] = .ok obj) :
    unmarshal (.document (.object members)) = (obj, none) := by
  simp [unmarshal, decode, h]

theorem nodup_decodeMembers (members : List (String × Json)) :
    ∀ (acc obj : GoMap GoValue), decodeMembers members acc = .ok obj → (mapKeys acc).Nodup →
      (mapKeys obj).Nodup := by
  induction members with
  | nil =>
    intro acc obj h hnd
    simp only [decodeMembers, Except.ok.injEq] at h
    rw [← h]; exact hnd
  | cons kj rest ih =>
    intro acc obj h hnd
    obtain ⟨k, j⟩ := kj
    rw [decodeMembers] at h
    cases hd : decode j with
    | error e => simp [hd] at h
    | ok v =>
      simp only [hd] at h
      exact ih _ _ h (nodup_mapSet _ _ _ hnd)

/-! ## Range orders -/

theorem insertionOrder_admissible : insertionOrder.Admissible :=
  ⟨fun s => List.Perm.refl s, fun _ l => List.Perm.refl l⟩

theorem reverseOrder_admissible : reverseOrder.Admissible :=
  ⟨fun s => List.reverse_perm s, fun _ l => List.reverse_perm l⟩

theorem RangeOrder.messages_singleton (ord : RangeOrder) (h : ord.Admissible)
    (e : String × GoMap String) : ord.messages [e] = [e] :=
  List.perm_singleton.1 (h.1 [e])

theorem RangeOrder.lines_singleton (ord : RangeOrder) (h : ord.Admissible) (name : String)
    (l : String × String) : ord.lines name [l] = [l] :=
  List.perm_singleton.1 (h.2 name [l])

theorem RangeOrder.lines_nil (ord : RangeOrder) (h : ord.Admissible) (name : String) :
    ord.lines name [] = [] :=
  List.perm_nil.1 (h.2 name [])

/-! ## Rendering -/

theorem toPrettyStrings_eq_map (ord : RangeOrder) (strings : SchemaSet) :
    toPrettyStrings ord strings =
      (ord.messages strings).map (fun kv => toPrettyProtoString ord kv.1 kv.2) := by
  have h : ∀ (l : SchemaSet) (acc : List String),
      l.foldl (fun res kv => res ++ [toPrettyProtoString ord kv.1 kv.2]) acc =
        acc ++ l.map (fun kv => toPrettyProtoString ord kv.1 kv.2) := by
    intro l
    induction l with
    | nil => intro acc; simp
    | cons e rest ih => intro acc; simp [ih]
  simpa [toPrettyStrings] using h (ord.messages strings) []

theorem length_toPrettyStrings (ord : RangeOrder) (h : ord.Admissible) (strings : SchemaSet) :
    (toPrettyStrings ord strings).length = strings.length := by
  rw [toPrettyStrings_eq_map, List.length_map]
  exact (h.1 strings).length_eq

/-- The blocks of a text: what `toProtoBuf` writes after the header, each block
followed by a blank line. -/
theorem foldl_blocks (pretties : List String) :
    ∀ strbuf : String, pretties.foldl (fun b p => b ++ p ++ "\n\n") strbuf =
      strbuf ++ String.join (pretties.map (fun p => p ++ "\n\n")) := by
  induction pretties with
  | nil => intro strbuf; simp [String.join]
  | cons p rest ih =>
    intro strbuf
    have hj : ∀ (l : List String) (a : String),
        l.foldl (fun r s => r ++ s) a = a ++ l.foldl (fun r s => r ++ s) "" := by
      intro l
      induction l with
      | nil => intro a; simp
      | cons s l ihl =>
        intro a
        rw [List.foldl_cons, ihl, List.foldl_cons, ihl ("" ++ s)]
        simp [String.append_assoc]
    rw [List.foldl_cons, ih]
    simp only [List.map_cons, String.join, List.foldl_cons]
    rw [hj _ ("" ++ (p ++ "\n\n"))]
    simp [String.append_assoc]

/-- A document whose root decodes to the object `obj` converts without error:
the header, then the blocks of `toProtos "RootBuf" obj`. -/
theorem toProtoBuf_object (ord : RangeOrder) (members : List (String × Json))
    (obj : GoMap GoValue) (h : decodeMembers members [] = .ok obj) :
    toProtoBuf ord (.document (.object members)) =
      (header ++ String.join
        ((toPrettyStrings ord (toProtos "RootBuf" obj)).map
          (fun p => p ++ "\n\n")), none) := by
  simp [toProtoBuf, unmarshal_object members obj h, foldl_blocks]

/-- The number of messages of a result: the number of distinct names among the
message name and the keys of the non-empty nested objects. -/
theorem length_toProtos (name : String) (obj : GoMap GoValue) :
    (toProtos name obj).length = (name :: nestedNames obj).dedup.length := by
  have hperm : (mapKeys (toProtos name obj)).Perm (name :: nestedNames obj).dedup := by
    rw [List.perm_ext_iff_of_nodup (nodup_toProtos name obj) (List.nodup_dedup _)]
    intro n
    rw [mem_mapKeys_toProtos, List.mem_dedup, List.mem_cons]
  have := hperm.length_eq
  simpa [mapKeys] using this

/-- The number `5/2` is within the float64 range. -/
theorem fitsFloat64_five_halves : fitsFloat64 (5 / 2) = true :=
  fitsFloat64_of_small _ (by norm_num) (by norm_num)

/-! ## The text of a block -/

theorem foldl_append_eq_join (l : List String) :
    ∀ a : String, l.foldl (fun r s => r ++ s) a = a ++ String.join l := by
  induction l with
  | nil => intro a; simp [String.join]
  | cons s l ih =>
    intro a
    have hj : String.join (s :: l) = s ++ String.join l := by
      simp only [String.join, List.foldl_cons]
      rw [ih ("" ++ s), ih ""]
      simp
    rw [List.foldl_cons, ih, hj, String.append_assoc]

theorem join_cons (s : String) (l : List String) :
    String.join (s :: l) = s ++ String.join l := by
  simp only [String.join, List.foldl_cons]
  rw [foldl_append_eq_join l ("" ++ s), foldl_append_eq_join l ""]
  simp

/-- A block: the opening line with the name, every field line followed by a
newline, in the order in which the lines are visited, and the closing brace. -/
theorem toPrettyProtoString_eq (ord : RangeOrder) (messageName : String)
    (strings : GoMap String) :
    toPrettyProtoString ord messageName strings =
      "message " ++ messageName ++ " \x7b\n" ++
        String.join ((ord.lines messageName strings).map (fun l => l.2 ++ "\n")) ++ "\x7d" := by
  have h : ∀ (l : GoMap String) (b : String),
      l.foldl (fun b kv => b ++ kv.2 ++ "\n") b =
        b ++ String.join (l.map (fun l => l.2 ++ "\n")) := by
    intro l
    induction l with
    | nil => intro b; simp [String.join]
    | cons e rest ih =>
      intro b
      rw [List.foldl_cons, ih, List.map_cons, join_cons]
      simp [String.append_assoc]
  simp only [toPrettyProtoString, h]

/-- What `toProtoBuf` returns in terms of `unmarshal`. -/
theorem toProtoBuf_eq (ord : RangeOrder) (reader : Reader) :
    toProtoBuf ord reader =
      match (unmarshal reader).2 with
      | some err => ("", some err)
      | none =>
        (header ++ String.join
          ((toPrettyStrings ord (toProtos "RootBuf" (unmarshal reader).1)).map
            (fun p => p ++ "\n\n")), none) := by
  unfold toProtoBuf
  rcases hu : unmarshal reader with ⟨jsonMap, _ | err⟩
  · simp [foldl_blocks]
  · simp

/-! ## Where a line comes from -/

theorem mem_setField (res : SchemaSet) (name k v : String) (e : String × GoMap String)
    (h : e ∈ setField res name k v) :
    e ∈ res ∨ ∃ f, (name, f) ∈ res ∧ e = (name, mapSet f k v) := by
  unfold setField at h
  cases h1 : mapGet res name with
  | none => exact Or.inl (by simpa [h1] using h)
  | some f =>
    simp only [h1] at h
    rcases mem_mapSet _ _ _ _ h with h2 | h2
    · exact Or.inr ⟨f, mem_of_mapGet _ _ _ h1, h2⟩
    · exact Or.inl h2

theorem IsLineOf.mono {S T : List (GoMap GoValue)} {l : String × String}
    (hST : ∀ o ∈ S, o ∈ T) (h : IsLineOf S l) : IsLineOf T l := by
  obtain ⟨o, ho, j, v, hj, hl⟩ := h
  exact ⟨o, hST o ho, j, v, hj, hl⟩

theorem lines_setField (S : List (GoMap GoValue)) (res : SchemaSet) (name k line : String)
    (hres : ∀ e ∈ res, ∀ l ∈ e.2, IsLineOf S l) (hline : IsLineOf S (k, line)) :
    ∀ e ∈ setField res name k line, ∀ l ∈ e.2, IsLineOf S l := by
  intro e he l hl
  rcases mem_setField _ _ _ _ e he with h | ⟨f, hf, rfl⟩
  · exact hres e h l hl
  · rcases mem_mapSet _ _ _ _ hl with h | h
    · rw [h]; exact hline
    · exact hres _ hf l h

theorem lines_toProtosLoop (name : String) (S : List (GoMap GoValue)) (rest : GoMap GoValue) :
    ∀ (pre : GoMap GoValue) (res : SchemaSet), pre ++ rest ∈ S →
      (∀ e ∈ nestedObjects rest, e.2 ∈ S) →
      (∀ k m, (k, GoValue.object m) ∈ rest → ∀ name, ∀ e ∈ toProtos name m, ∀ l ∈ e.2,
        IsLineOf (m :: (nestedObjects m).map Prod.snd) l) →
      (∀ e ∈ res, ∀ l ∈ e.2, IsLineOf S l) →
      ∀ e ∈ toProtosLoop name rest res pre.length, ∀ l ∈ e.2, IsLineOf S l := by
  induction rest with
  | nil => intro pre res _ _ _ hres; simpa [toProtosLoop_nil] using hres
  | cons kv rest ihr =>
    intro pre res hS hnest ih hres
    obtain ⟨k, v⟩ := kv
    have hS' : (pre ++ [(k, v)]) ++ rest ∈ S := by simpa using hS
    have hlen : (pre ++ [(k, v)]).length = pre.length + 1 := by simp
    have hpos : (pre ++ (k, v) :: rest)[pre.length]? = some (k, v) := by
      rw [List.getElem?_append_right (le_refl _)]
      simp
    have ih' : ∀ k m, (k, GoValue.object m) ∈ rest → ∀ name, ∀ e ∈ toProtos name m,
        ∀ l ∈ e.2, IsLineOf (m :: (nestedObjects m).map Prod.snd) l :=
      fun k m hm => ih k m (List.mem_cons_of_mem _ hm)
    have hline : ∀ line, fieldLine k v pre.length = some line → IsLineOf S (k, line) :=
      fun line hl => ⟨_, hS, pre.length, v, hpos, hl⟩
    rcases value_kind k v pre.length with ⟨e0, m, rfl⟩ | hs | ⟨h2, h1⟩
    · rw [nestedObjects_object] at hnest
      rw [toProtosLoop_object, ← hlen]
      apply ihr _ _ hS' (fun e he => hnest e (by simp [he])) ih'
      intro e he l hl
      rcases mem_mergemaps _ _ e he with h | h
      · exact lines_setField S res name k _ hres (hline _ (fieldLine_object k e0 m _)) e h l hl
      · apply IsLineOf.mono _ (ih k (e0 :: m) (List.mem_cons_self _ _) k e h l hl)
        intro o ho
        rcases List.mem_cons.1 ho with ho | ho
        · rw [ho]; exact hnest (k, e0 :: m) (by simp)
        · obtain ⟨e1, he1, rfl⟩ := List.mem_map.1 ho
          exact hnest e1 (by simp [he1])
    · rw [nestedObjects_other k v rest (not_object_of_skip k v _ hs)] at hnest
      rw [toProtosLoop_skip _ _ _ _ _ _ hs, ← hlen]
      exact ihr _ _ hS' hnest ih' hres
    · rw [nestedObjects_other k v rest (not_object_of_scalar k v _ h2)] at hnest
      rw [toProtosLoop_scalar _ _ _ _ _ _ h2 h1, ← hlen]
      apply ihr _ _ hS' hnest ih'
      exact lines_setField S res name k _ hres (hline _ (fieldLine_scalar k v _ h2 h1))

/-- Every line of every message of a result is the line of a key of an object of
the tree, at the position of that key in its object. -/
theorem lines_toProtos (obj : GoMap GoValue) :
    ∀ name, ∀ e ∈ toProtos name obj, ∀ l ∈ e.2,
      IsLineOf (obj :: (nestedObjects obj).map Prod.snd) l := by
  induction obj using tree_induction with
  | h obj ih =>
    intro name e he l hl
    rw [toProtos] at he
    refine lines_toProtosLoop name _ obj [] _ (by simp) ?_ ih ?_ e he l hl
    · intro e1 he1
      exact List.mem_cons_of_mem _ (List.mem_map.2 ⟨e1, he1, rfl⟩)
    · intro e1 he1 l1 hl1
      simp only [List.mem_singleton] at he1
      rw [he1] at hl1
      simp at hl1

/-! ## The text of a single message -/

theorem eq_of_perm_of_length_le_one {α : Type} (l l1 : List α) (hp : l1.Perm l)
    (hl : l.length ≤ 1) : l1 = l := by
  cases l with
  | nil => exact List.perm_nil.1 hp
  | cons a rest =>
    cases rest with
    | nil => exact List.perm_singleton.1 hp
    | cons b rest => simp at hl

/-- The text for a document whose result is the one message `RootBuf` with at
most one line: the same in every admissible range order. -/
theorem toProtoBuf_single (ord : RangeOrder) (hord : ord.Admissible)
    (members : List (String × Json)) (obj : GoMap GoValue) (fields : GoMap String)
    (hdec : decodeMembers members [] = .ok obj)
    (hres : toProtos "RootBuf" obj = [("RootBuf", fields)]) (hlen : fields.length ≤ 1) :
    toProtoBuf ord (.document (.object members)) =
      (header ++ ("message RootBuf \x7b\n" ++ String.join (fields.map (fun l => l.2 ++ "\n")) ++
        "\x7d" ++ "\n\n"), none) := by
  rw [toProtoBuf_object ord members obj hdec, hres, toPrettyStrings_eq_map,
    ord.messages_singleton hord]
  simp only [List.map_cons, List.map_nil, toPrettyProtoString_eq,
    eq_of_perm_of_length_le_one fields _ (hord.2 "RootBuf" fields) hlen]
  simp [String.join, String.append_assoc]

/-- Every entry of a decoded object is the decoded value of a member of the document. -/
theorem mem_decodeMembers (members : List (String × Json)) :
    ∀ (acc obj : GoMap GoValue), decodeMembers members acc = .ok obj →
      ∀ e ∈ obj, e ∈ acc ∨ ∃ j, (e.1, j) ∈ members ∧ decode j = .ok e.2 := by
  induction members with
  | nil =>
    intro acc obj h e he
    simp only [decodeMembers, Except.ok.injEq] at h
    rw [← h] at he; exact Or.inl he
  | cons kj rest ih =>
    intro acc obj h e he
    obtain ⟨k, j⟩ := kj
    rw [decodeMembers] at h
    cases hd : decode j with
    | error err => simp [hd] at h
    | ok v =>
      simp only [hd] at h
      rcases ih _ _ h e he with h1 | ⟨j1, hj1, hdj⟩
      · rcases mem_mapSet _ _ _ _ h1 with h2 | h2
        · refine Or.inr ⟨j, ?_, ?_⟩
          · rw [h2]; exact List.mem_cons_self _ _
          · rw [h2]; exact hd
        · exact Or.inl h2
      · exact Or.inr ⟨j1, List.mem_cons_of_mem _ hj1, hdj⟩

/-! ## Properties of the specification -/

/-- C1, as stated, fails: the document `{"a":{}}` has no array and one nested
object, yet `toProtoBuf` writes the single block of `RootBuf`, not two blocks,
in every admissible range order. -/
theorem message_blocks_counterexample :
    decodeMembers [("a", Json.object [])] [] = .ok [("a", GoValue.object [])] ∧
    noArrays [("a", GoValue.object [])] = true ∧
    toProtoBuf insertionOrder (.document (.object [("a", .object [])])) =
      (header ++ "message RootBuf \x7b\n\x7d\n\n", none) ∧
    (toPrettyStrings insertionOrder (toProtos "RootBuf" [("a", GoValue.object [])])).length ≠
      1 + countNestedObjects [("a", GoValue.object [])] ∧
    (∀ ord : RangeOrder, ord.Admissible →
      toProtoBuf ord (.document (.object [("a", .object [])])) =
        (header ++ "message RootBuf \x7b\n\x7d\n\n", none)) := by
  have hdec : decodeMembers [("a", Json.object [])] [] = .ok [("a", GoValue.object [])] := by
    simp [decodeMembers, decode, mapSet]
  have hres : toProtos "RootBuf" [("a", GoValue.object [])] = [("RootBuf", [])] := by
    simp [toProtos, toProtosLoop, typeWithNameAndIndex]
  have hall : ∀ ord : RangeOrder, ord.Admissible →
      toProtoBuf ord (.document (.object [("a", .object [])])) =
        (header ++ "message RootBuf \x7b\n\x7d\n\n", none) := by
    intro ord hord
    rw [toProtoBuf_single ord hord _ _ [] hdec hres (by simp)]
    simp +decide [String.join]
  refine ⟨hdec, by simp [noArrays], hall _ insertionOrder_admissible, ?_, hall⟩
  rw [length_toPrettyStrings _ insertionOrder_admissible, hres]
  simp [countNestedObjects]

/-- C1 (amended): for a well-formed document whose root is an object, in every
admissible range order: when a number of the document is outside the float64
range `toProtoBuf` returns the error of the decoder, as for `{"n":1e999}`;
otherwise it converts without error, and the text is the header followed by one
block per message of the result, in the order of the range; the number of
blocks is the number of distinct names among `RootBuf` and the keys that hold
non-empty nested objects, and when these names are pairwise distinct it is 1
plus the number of non-empty nested objects. -/
theorem message_blocks (ord : RangeOrder) (hord : ord.Admissible)
    (members : List (String × Json)) :
    (∀ e, decodeMembers members [] = .error e →
      toProtoBuf ord (.document (.object members)) = ("", some e)) ∧
    toProtoBuf ord (.document (.object [("n", .number (10 ^ 999))])) =
      ("", some rangeError) ∧
    (∀ obj, decodeMembers members [] = .ok obj →
      toProtoBuf ord (.document (.object members)) =
        (header ++ String.join
          ((toPrettyStrings ord (toProtos "RootBuf" obj)).map (fun p => p ++ "\n\n")), none) ∧
      toPrettyStrings ord (toProtos "RootBuf" obj) =
        (ord.messages (toProtos "RootBuf" obj)).map
          (fun kv => toPrettyProtoString ord kv.1 kv.2) ∧
      (ord.messages (toProtos "RootBuf" obj)).Perm (toProtos "RootBuf" obj) ∧
      (toPrettyStrings ord (toProtos "RootBuf" obj)).length =
        ("RootBuf" :: nestedNames obj).dedup.length ∧
      (("RootBuf" :: nestedNames obj).Nodup →
        (toPrettyStrings ord (toProtos "RootBuf" obj)).length =
          1 + (nestedObjects obj).length)) := by
  refine ⟨?_, ?_, ?_⟩
  · intro e he
    rw [toProtoBuf_eq, unmarshal_error _ e (by simp [decode, he])]
  · rw [toProtoBuf_eq, unmarshal_error _ rangeError
      (by simp [decode, decodeMembers, fitsFloat64_huge])]
  · intro obj hdec
    refine ⟨toProtoBuf_object ord members obj hdec, toPrettyStrings_eq_map _ _, hord.1 _, ?_, ?_⟩
    · rw [length_toPrettyStrings _ hord, length_toProtos]
    · intro h
      rw [length_toPrettyStrings _ hord, length_toProtos, List.Nodup.dedup h]
      simp only [nestedNames, List.length_cons, List.length_map]
      omega

/-- C1 (amended), at `{"a":{"b":{"c":"d"}},"e":{"f":1}}` in the reverse range
order: four blocks. -/
theorem message_blocks_witness :
    reverseOrder.Admissible ∧
    decodeMembers [("a", Json.object [("b", Json.object [("c", Json.string "d")])]),
        ("e", Json.object [("f", Json.number 1)])] [] =
      .ok [("a", GoValue.object [("b", GoValue.object [("c", GoValue.str "d")])]),
        ("e", GoValue.object [("f", GoValue.float64 1)])] ∧
    ("RootBuf" :: nestedNames
      [("a", GoValue.object [("b", GoValue.object [("c", GoValue.str "d")])]),
        ("e", GoValue.object [("f", GoValue.float64 1)])]).Nodup ∧
    (toPrettyStrings reverseOrder (toProtos "RootBuf"
      [("a", GoValue.object [("b", GoValue.object [("c", GoValue.str "d")])]),
        ("e", GoValue.object [("f", GoValue.float64 1)])])).length =
      1 + (nestedObjects
        [("a", GoValue.object [("b", GoValue.object [("c", GoValue.str "d")])]),
          ("e", GoValue.object [("f", GoValue.float64 1)])]).length :=
  ⟨reverseOrder_admissible,
   by simp +decide [decodeMembers, decode, mapSet, fitsFloat64_of_small],
   by simp +decide [nestedNames, nestedObjects],
   ((message_blocks reverseOrder reverseOrder_admissible
      [("a", Json.object [("b", Json.object [("c", Json.string "d")])]),
        ("e", Json.object [("f", Json.number 1)])]).2.2 _
      (by simp +decide [decodeMembers, decode, mapSet, fitsFloat64_of_small])).2.2.2.2
    (by simp +decide [nestedNames, nestedObjects])⟩

/-- C2, as stated, fails: for `{"a":{}}` the message `RootBuf` has no field,
while the object has one key, which is neither an array nor a plain int. -/
theorem field_count_counterexample :
    noArrays [("a", GoValue.object [])] = true ∧
    toProtos "RootBuf" [("a", GoValue.object [])] = [("RootBuf", [])] ∧
    ([] : GoMap String).length ≠
      ([("a", GoValue.object [])] : GoMap GoValue).length -
        (([("a", GoValue.object [])] : GoMap GoValue).countP (fun kv => isArray kv.2) +
         ([("a", GoValue.object [])] : GoMap GoValue).countP (fun kv => isPlainInt kv.2)) := by
  simp +decide [toProtos, toProtosLoop, typeWithNameAndIndex, noArrays, isArray, isPlainInt]

/-- C2 (amended): when the keys of every object are pairwise distinct and no
non-empty nested object is held by a key equal to the name of an enclosing
message, every message of the result of `toProtos` was inferred from an object
of the tree held under the message name, and its number of field lines is the
number of keys of that object minus the number of keys whose value is an array,
a plain int or an empty object. -/
theorem field_count (name : String) (obj : GoMap GoValue) (hns : NoShadow name obj)
    (hkd : KeysDistinct obj) :
    ∀ e ∈ toProtos name obj, ∃ o, (e.1, o) ∈ (name, obj) :: nestedObjects obj ∧
      e.2.length = o.length -
        o.countP (fun kv => isArray kv.2 || isPlainInt kv.2 || isEmptyObject kv.2) := by
  intro e he
  obtain ⟨o, ho, hf⟩ := toProtos_origin obj name hns hkd e he
  refine ⟨o, ho, ?_⟩
  have := length_fieldLines o 0
  rw [hf]
  omega

/-- C2 (amended), at `{"s":"x","l":[],"i":int 3,"o":{"t":true,"e":{}}}` under `RootBuf`. -/
theorem field_count_witness :
    NoShadow "RootBuf" [("s", .str "x"), ("l", .slice []), ("i", .int 3),
      ("o", .object [("t", .bool true), ("e", .object [])])] ∧
    KeysDistinct [("s", .str "x"), ("l", .slice []), ("i", .int 3),
      ("o", .object [("t", .bool true), ("e", .object [])])] ∧
    ∀ e ∈ toProtos "RootBuf" [("s", .str "x"), ("l", .slice []), ("i", .int 3),
        ("o", .object [("t", .bool true), ("e", .object [])])],
      ∃ o, (e.1, o) ∈ ("RootBuf", [("s", .str "x"), ("l", .slice []), ("i", .int 3),
          ("o", .object [("t", .bool true), ("e", .object [])])]) ::
          nestedObjects [("s", .str "x"), ("l", .slice []), ("i", .int 3),
            ("o", .object [("t", .bool true), ("e", .object [])])] ∧
        e.2.length = o.length -
          o.countP (fun kv => isArray kv.2 || isPlainInt kv.2 || isEmptyObject kv.2) :=
  ⟨by simp +decide [NoShadow, nestedNames, nestedObjects],
   by simp +decide [KeysDistinct, nestedObjects, mapKeys],
   field_count _ _ (by simp +decide [NoShadow, nestedNames, nestedObjects])
    (by simp +decide [KeysDistinct, nestedObjects, mapKeys])⟩

/-- C3, as stated, fails: the key `a` of `{"a":{}}` holds a nested object, yet
the result defines no message `a` and `RootBuf` holds no field for `a`. -/
theorem nested_message_counterexample :
    toProtos "RootBuf" [("a", GoValue.object [])] = [("RootBuf", [])] ∧
    mapGet (toProtos "RootBuf" [("a", GoValue.object [])]) "a" = none ∧
    mapGet (toProtos "RootBuf" [("a", GoValue.object [])]) "RootBuf" = some [] := by
  simp +decide [toProtos, toProtosLoop, typeWithNameAndIndex, mapGet]

/-- C3 (amended): for every key `k` at position `i` whose value is a non-empty
nested object, the result of `toProtos` defines a message named `k`; when the
keys of the object are pairwise distinct and no non-empty nested object at any
depth is held by a key equal to the message name, the message `messageName`
holds for `k` the reference line `\tk k = i;`.  The example `{"a":{"b":"c"}}`
under `RootBuf` yields exactly the messages `RootBuf` and `a`. -/
theorem nested_message :
    (∀ (messageName : String) (obj : GoMap GoValue) (i : Nat) (k : String)
        (e : String × GoValue) (m : GoMap GoValue),
        obj[i]? = some (k, .object (e :: m)) →
        k ∈ mapKeys (toProtos messageName obj) ∧
        ((mapKeys obj).Nodup → messageName ∉ nestedNames obj →
          ∃ fields, mapGet (toProtos messageName obj) messageName = some fields ∧
            mapGet fields k = some ("\t" ++ k ++ " " ++ k ++ " = " ++ toString i ++ ";"))) ∧
    toProtos "RootBuf" [("a", .object [("b", .str "c")])] =
      [("RootBuf", [("a", "\ta a = 0;")]), ("a", [("b", "\tstring  b = 0 ;")])] := by
  constructor
  · intro messageName obj i k e m hi
    constructor
    · rw [mem_mapKeys_toProtos]
      right
      exact mem_nestedNames_of_mem obj k e m (List.getElem?_mem hi)
    · intro hk hns
      refine ⟨fieldLines obj 0, mapGet_toProtos_self messageName obj hns hk, ?_⟩
      exact mapGet_fieldLines obj hk i k _ _ hi (fieldLine_object k e m i)
  · simp +decide [toProtos, toProtosLoop, typeWithNameAndIndex, nameit, setField, mapGet,
      mapSet, mergemaps, refField]

/-- C3 (amended), at `{"s":"x","a":{"b":"c"}}` under `RootBuf`, key `a` at position 1. -/
theorem nested_message_witness :
    ([("s", GoValue.str "x"), ("a", .object [("b", .str "c")])] : GoMap GoValue)[1]? =
      some ("a", .object (("b", .str "c") :: [])) ∧
    (mapKeys [("s", GoValue.str "x"), ("a", .object [("b", .str "c")])]).Nodup ∧
    "RootBuf" ∉ nestedNames [("s", GoValue.str "x"), ("a", .object [("b", .str "c")])] ∧
    "a" ∈ mapKeys (toProtos "RootBuf" [("s", .str "x"), ("a", .object [("b", .str "c")])]) ∧
    ∃ fields, mapGet (toProtos "RootBuf" [("s", .str "x"), ("a", .object [("b", .str "c")])])
        "RootBuf" = some fields ∧
      mapGet fields "a" = some ("\t" ++ "a" ++ " " ++ "a" ++ " = " ++ toString 1 ++ ";") :=
  ⟨rfl, by simp +decide [mapKeys], by simp +decide [nestedNames, nestedObjects],
   (nested_message.1 "RootBuf" _ 1 "a" ("b", .str "c") [] rfl).1,
   (nested_message.1 "RootBuf" _ 1 "a" ("b", .str "c") [] rfl).2
     (by simp +decide [mapKeys]) (by simp +decide [nestedNames, nestedObjects])⟩

/-- C4, as stated, fails: under `RootBuf`, the object `{"RootBuf":{"a":"s","x":"s"},"y":"t"}`
processed in that order yields a message `RootBuf` whose fields `x` and `y` both
carry the number 1. -/
theorem field_numbers_counterexample :
    KeysDistinct [("RootBuf", .object [("a", .str "s"), ("x", .str "s")]), ("y", .str "t")] ∧
    toProtos "RootBuf"
        [("RootBuf", .object [("a", .str "s"), ("x", .str "s")]), ("y", .str "t")] =
      [("RootBuf", [("a", "\tstring  a = 0 ;"), ("x", "\tstring  x = 1 ;"),
        ("y", "\tstring  y = 1 ;")])] ∧
    fieldNumber "\tstring  x = 1 ;" = some 1 ∧ fieldNumber "\tstring  y = 1 ;" = some 1 ∧
    ¬ ([("a", "\tstring  a = 0 ;"), ("x", "\tstring  x = 1 ;"),
        ("y", "\tstring  y = 1 ;")].map (fun l => fieldNumber l.2)).Nodup := by
  refine ⟨?_, ?_, by decide, by decide, by decide⟩
  · simp +decide [KeysDistinct, nestedObjects, mapKeys]
  · simp +decide [toProtos, toProtosLoop, typeWithNameAndIndex, nameit, setField, mapGet,
      mapSet, mergemaps, refField]

/-- C4 (amended): when the keys of every object are pairwise distinct and no
non-empty nested object is held by a key equal to the name of an enclosing
message, every field line of every message of the result of `toProtos` carries
a field number, and the numbers within one message are pairwise distinct. -/
theorem field_numbers (name : String) (obj : GoMap GoValue) (hns : NoShadow name obj)
    (hkd : KeysDistinct obj) :
    ∀ e ∈ toProtos name obj, (∀ l ∈ e.2, ∃ i, fieldNumber l.2 = some i) ∧
      (e.2.map (fun l => fieldNumber l.2)).Nodup := by
  intro e he
  obtain ⟨o, _, hf⟩ := toProtos_origin obj name hns hkd e he
  rw [hf]
  obtain ⟨h1, h2⟩ := fieldLines_numbers o 0
  exact ⟨fun l hl => (h1 l hl).imp fun i hi => hi.1, h2⟩

/-- C4 (amended), at `{"s":"x","l":[],"o":{"t":true,"u":null}}` under `RootBuf`. -/
theorem field_numbers_witness :
    NoShadow "RootBuf" [("s", .str "x"), ("l", .slice []),
      ("o", .object [("t", .bool true), ("u", .nil)])] ∧
    KeysDistinct [("s", .str "x"), ("l", .slice []),
      ("o", .object [("t", .bool true), ("u", .nil)])] ∧
    ∀ e ∈ toProtos "RootBuf" [("s", .str "x"), ("l", .slice []),
        ("o", .object [("t", .bool true), ("u", .nil)])],
      (∀ l ∈ e.2, ∃ i, fieldNumber l.2 = some i) ∧
        (e.2.map (fun l => fieldNumber l.2)).Nodup :=
  ⟨by simp +decide [NoShadow, nestedNames, nestedObjects],
   by simp +decide [KeysDistinct, nestedObjects, mapKeys],
   field_numbers _ _ (by simp +decide [NoShadow, nestedNames, nestedObjects])
    (by simp +decide [KeysDistinct, nestedObjects, mapKeys])⟩

theorem toProtosLoop_append (name : String) (pre post : GoMap GoValue) :
    ∀ (res : SchemaSet) (c : Nat), toProtosLoop name (pre ++ post) res c =
      toProtosLoop name post (toProtosLoop name pre res c) (c + pre.length) := by
  induction pre with
  | nil => intro res c; simp [toProtosLoop_nil]
  | cons kv pre ih =>
    intro res c
    obtain ⟨k, v⟩ := kv
    have hc : c + 1 + pre.length = c + (pre.length + 1) := by omega
    rcases value_kind k v c with ⟨e, m, rfl⟩ | hs | ⟨h2, h1⟩
    · simp only [List.cons_append, toProtosLoop_object, ih, List.length_cons, hc]
    · simp only [List.cons_append, toProtosLoop_skip _ _ _ _ _ _ hs, ih, List.length_cons, hc]
    · simp only [List.cons_append, toProtosLoop_scalar _ _ _ _ _ _ h2 h1, ih,
        List.length_cons, hc]

/-- The state of `toProtos` just before the key that follows the keys `pre`. -/
theorem toProtos_split (name : String) (pre post : GoMap GoValue) :
    toProtos name (pre ++ post) =
      toProtosLoop name post (toProtosLoop name pre [(name, [])] 0) pre.length := by
  rw [toProtos, toProtosLoop_append]
  simp

theorem nestedNames_eq_nil (obj : GoMap GoValue) (h : ∀ kv ∈ obj, isObject kv.2 = false) :
    nestedNames obj = [] := by
  induction obj with
  | nil => simp [nestedNames, nestedObjects]
  | cons kv rest ih =>
    obtain ⟨k, v⟩ := kv
    have hv : isObject v = false := h (k, v) (List.mem_cons_self _ _)
    rw [nestedNames_other k v rest (by intro e m hv'; subst hv'; simp [isObject] at hv)]
    exact ih (fun kv hkv => h kv (List.mem_cons_of_mem _ hkv))

theorem eq_singleton_of_mapGet {V : Type} (r : GoMap V) (name : String) (f : V)
    (hnd : (mapKeys r).Nodup) (hall : ∀ n ∈ mapKeys r, n = name)
    (hget : mapGet r name = some f) : r = [(name, f)] := by
  cases r with
  | nil => simp [mapGet] at hget
  | cons e rest =>
    obtain ⟨k0, v0⟩ := e
    have h0 : k0 = name := hall k0 (by simp [mapKeys])
    subst h0
    simp only [mapGet, if_true, Option.some.injEq] at hget
    subst hget
    cases rest with
    | nil => rfl
    | cons e1 rest =>
      have h1 : e1.1 = k0 := hall e1.1 (by simp [mapKeys])
      simp [mapKeys, h1] at hnd

theorem fieldLine_of_not_object (k : String) (v : GoValue) (c : Nat)
    (h : isObject v = false) :
    fieldLine k v c =
      if (typeWithNameAndIndex k v c).1 ≠ "" then some (typeWithNameAndIndex k v c).1
      else none := by
  cases v <;> simp [fieldLine, typeWithNameAndIndex, nameit, isObject] at h ⊢

/-- C5: for an object with no nested object among its values, processed in the
order `k_0, ..., k_{n-1}`, the result is the one message `messageName`; every
line in it is the text `typeWithNameAndIndex` returns for some key `k_i` at
counter `i` and carries the field number `i`; and every key `k_i` for which
that text is not empty has it in the message.  The counter starts at 0 and
advances once per key, so a skipped key leaves a gap. -/
theorem positional_numbers (messageName : String) (obj : GoMap GoValue)
    (hk : (mapKeys obj).Nodup) (hno : ∀ kv ∈ obj, isObject kv.2 = false) :
    ∃ fields, toProtos messageName obj = [(messageName, fields)] ∧
      (∀ l ∈ fields, ∃ i v, obj[i]? = some (l.1, v) ∧
        l.2 = (typeWithNameAndIndex l.1 v i).1 ∧ fieldNumber l.2 = some i) ∧
      (∀ i k v, obj[i]? = some (k, v) → (typeWithNameAndIndex k v i).1 ≠ "" →
        mapGet fields k = some (typeWithNameAndIndex k v i).1) := by
  have hnn := nestedNames_eq_nil obj hno
  have hget := mapGet_toProtos_self messageName obj (by simp [hnn]) hk
  refine ⟨fieldLines obj 0, ?_, ?_, ?_⟩
  · apply eq_singleton_of_mapGet _ _ _ (nodup_toProtos messageName obj) _ hget
    intro n hn
    simpa [mem_mapKeys_toProtos, hnn] using hn
  · intro l hl
    obtain ⟨j, v, hj, hfl⟩ := mem_fieldLines obj 0 l hl
    simp only [Nat.zero_add] at hfl
    refine ⟨j, v, hj, ?_, fieldNumber_fieldLine _ _ _ _ hfl⟩
    rw [fieldLine_of_not_object _ _ _ (hno _ (List.getElem?_mem hj))] at hfl
    by_cases ht : (typeWithNameAndIndex l.1 v j).1 ≠ ""
    · rw [if_pos ht] at hfl
      exact (Option.some.inj hfl).symm
    · simp [ht] at hfl
  · intro i k v hi ht
    apply mapGet_fieldLines obj hk i k v _ hi
    rw [fieldLine_of_not_object _ _ _ (hno _ (List.getElem?_mem hi))]
    simp [ht]

/-- C5, at `{"l":[1],"s":"x","n":int 3,"t":true}` under `M`: fields `s` and `t`,
numbered 1 and 3. -/
theorem positional_numbers_witness :
    (mapKeys [("l", GoValue.slice [.int 1]), ("s", .str "x"), ("n", .int 3),
      ("t", .bool true)]).Nodup ∧
    (∀ kv ∈ [("l", GoValue.slice [.int 1]), ("s", .str "x"), ("n", .int 3),
      ("t", .bool true)], isObject kv.2 = false) ∧
    ∃ fields, toProtos "M" [("l", GoValue.slice [.int 1]), ("s", .str "x"), ("n", .int 3),
        ("t", .bool true)] = [("M", fields)] ∧
      (∀ l ∈ fields, ∃ i v, [("l", GoValue.slice [.int 1]), ("s", .str "x"), ("n", .int 3),
          ("t", .bool true)][i]? = some (l.1, v) ∧
        l.2 = (typeWithNameAndIndex l.1 v i).1 ∧ fieldNumber l.2 = some i) ∧
      (∀ i k v, [("l", GoValue.slice [.int 1]), ("s", .str "x"), ("n", .int 3),
          ("t", .bool true)][i]? = some (k, v) → (typeWithNameAndIndex k v i).1 ≠ "" →
        mapGet fields k = some (typeWithNameAndIndex k v i).1) :=
  ⟨by simp +decide [mapKeys], by simp [isObject],
   positional_numbers "M" _ (by simp +decide [mapKeys]) (by simp [isObject])⟩

theorem nameit_string (k : String) (i : Nat) :
    nameit "string " k i = ("\tstring  " ++ k ++ " = " ++ toString i ++ " ;", []) := by
  have h : "\t" ++ "string " ++ " " = "\tstring  " := by decide
  simp only [nameit, ← h]

/-- C6: a string value under key `k` at position `i` makes `typeWithNameAndIndex`
return the line `\tstring  k = i ;` and no nested object; the pass of `toProtos`
for `k` stores exactly that line under `k` in the message `messageName`; with
distinct keys and no nested object named `messageName` the message of the
result holds it.  `{"foo":"bar"}` under `RootBuf` yields the single message
`RootBuf` with the single line `\tstring  foo = 0 ;`, and that is the text of
`toProtoBuf` in every admissible range order. -/
theorem string_field :
    (∀ (k s : String) (i : Nat), typeWithNameAndIndex k (.str s) i =
      ("\tstring  " ++ k ++ " = " ++ toString i ++ " ;", [])) ∧
    (∀ (messageName : String) (pre post : GoMap GoValue) (k s : String),
      toProtos messageName (pre ++ (k, .str s) :: post) =
        toProtosLoop messageName post
          (setField (toProtosLoop messageName pre [(messageName, [])] 0) messageName k
            ("\tstring  " ++ k ++ " = " ++ toString pre.length ++ " ;")) (pre.length + 1) ∧
      ∃ fields, mapGet (setField (toProtosLoop messageName pre [(messageName, [])] 0)
          messageName k ("\tstring  " ++ k ++ " = " ++ toString pre.length ++ " ;"))
          messageName = some fields ∧
        mapGet fields k = some ("\tstring  " ++ k ++ " = " ++ toString pre.length ++ " ;")) ∧
    (∀ (messageName : String) (obj : GoMap GoValue) (i : Nat) (k s : String),
      (mapKeys obj).Nodup → messageName ∉ nestedNames obj → obj[i]? = some (k, .str s) →
      ∃ fields, mapGet (toProtos messageName obj) messageName = some fields ∧
        mapGet fields k = some ("\tstring  " ++ k ++ " = " ++ toString i ++ " ;")) ∧
    toProtos "RootBuf" [("foo", .str "bar")] =
      [("RootBuf", [("foo", "\tstring  foo = 0 ;")])] ∧
    (∀ ord : RangeOrder, ord.Admissible →
      toProtoBuf ord (.document (.object [("foo", .string "bar")])) =
        (header ++ "message RootBuf \x7b\n\tstring  foo = 0 ;\n\x7d\n\n", none)) := by
  have htype : ∀ (k s : String) (i : Nat), typeWithNameAndIndex k (.str s) i =
      ("\tstring  " ++ k ++ " = " ++ toString i ++ " ;", []) := by
    intro k s i
    simp only [typeWithNameAndIndex, nameit_string]
  refine ⟨htype, ?_, ?_, ?_, ?_⟩
  · intro messageName pre post k s
    have h1 : (typeWithNameAndIndex k (.str s) pre.length).1 ≠ "" := nameit_fst_ne_empty _ _ _
    constructor
    · rw [toProtos_split, toProtosLoop_scalar messageName k (.str s) post _ pre.length rfl h1,
        htype]
    · have hdef : messageName ∈ mapKeys (toProtosLoop messageName pre [(messageName, [])] 0) :=
        toProtosLoop_defines _ _ _ _ (by simp [mapKeys])
      cases hget : mapGet (toProtosLoop messageName pre [(messageName, [])] 0) messageName with
      | none => exact absurd hdef ((mapGet_eq_none_iff _ _).1 hget)
      | some f =>
        exact ⟨_, mapGet_setField_self _ _ _ _ f hget, mapGet_mapSet_self _ _ _⟩
  · intro messageName obj i k s hk hns hi
    refine ⟨fieldLines obj 0, mapGet_toProtos_self messageName obj hns hk, ?_⟩
    apply mapGet_fieldLines obj hk i k _ _ hi
    rw [fieldLine_scalar k (.str s) i rfl (nameit_fst_ne_empty _ _ _), htype]
  · simp +decide [toProtos, toProtosLoop, typeWithNameAndIndex, nameit, setField, mapGet,
      mapSet]
  · intro ord hord
    rw [toProtoBuf_single ord hord _ [("foo", .str "bar")] [("foo", "\tstring  foo = 0 ;")]
      (by simp [decodeMembers, decode, mapSet])
      (by simp +decide [toProtos, toProtosLoop, typeWithNameAndIndex, nameit, setField, mapGet,
        mapSet]) (by simp)]
    simp +decide [String.join]

/-- C6, at `{"n":null,"foo":"bar"}` under `RootBuf`: `foo` at position 1; and the
text of `{"foo":"bar"}` in the reverse range order. -/
theorem string_field_witness :
    (mapKeys [("n", GoValue.nil), ("foo", .str "bar")]).Nodup ∧
    "RootBuf" ∉ nestedNames [("n", GoValue.nil), ("foo", .str "bar")] ∧
    ([("n", GoValue.nil), ("foo", .str "bar")] : GoMap GoValue)[1]? =
      some ("foo", .str "bar") ∧
    (∃ fields, mapGet (toProtos "RootBuf" [("n", GoValue.nil), ("foo", .str "bar")])
        "RootBuf" = some fields ∧
      mapGet fields "foo" = some ("\tstring  " ++ "foo" ++ " = " ++ toString 1 ++ " ;")) ∧
    reverseOrder.Admissible ∧
    toProtoBuf reverseOrder (.document (.object [("foo", .string "bar")])) =
      (header ++ "message RootBuf \x7b\n\tstring  foo = 0 ;\n\x7d\n\n", none) :=
  ⟨by simp +decide [mapKeys], by simp +decide [nestedNames, nestedObjects], rfl,
   string_field.2.2.1 "RootBuf" _ 1 "foo" "bar" (by simp +decide [mapKeys])
    (by simp +decide [nestedNames, nestedObjects]) rfl,
   reverseOrder_admissible,
   string_field.2.2.2.2 reverseOrder reverseOrder_admissible⟩

/-- C7: an array value makes `typeWithNameAndIndex` return no text and no nested
object; the pass of `toProtos` for that key leaves the message set as it was and
advances the counter; an array whose elements decode is decoded to a slice, and
a document whose root is an object converts without error exactly when it
decodes; `{"list":[1,2,3]}` gives the header and an empty `RootBuf` block, in
every admissible range order. -/
theorem array_skipped :
    (∀ (k : String) (xs : List GoValue) (i : Nat),
      typeWithNameAndIndex k (.slice xs) i = ("", [])) ∧
    (∀ (messageName k : String) (xs : List GoValue) (rest : GoMap GoValue) (res : SchemaSet)
      (counter : Nat),
      toProtosLoop messageName ((k, .slice xs) :: rest) res counter =
        toProtosLoop messageName rest res (counter + 1)) ∧
    (∀ (messageName k : String) (xs : List GoValue) (pre post : GoMap GoValue),
      toProtos messageName (pre ++ (k, .slice xs) :: post) =
        toProtosLoop messageName post (toProtosLoop messageName pre [(messageName, [])] 0)
          (pre.length + 1)) ∧
    (∀ (xs : List Json) (vs : List GoValue), decodeElems xs = .ok vs →
      decode (.array xs) = .ok (.slice vs)) ∧
    (∀ (ord : RangeOrder) (members : List (String × Json)),
      (toProtoBuf ord (.document (.object members))).2 = none ↔
        ∃ obj, decodeMembers members [] = .ok obj) ∧
    (∀ ord : RangeOrder, ord.Admissible →
      toProtoBuf ord
          (.document (.object [("list", .array [.number 1, .number 2, .number 3])])) =
        (header ++ "message RootBuf \x7b\n\x7d\n\n", none)) := by
  refine ⟨fun _ _ _ => rfl, ?_, ?_, ?_, ?_, ?_⟩
  · intro messageName k xs rest res counter
    exact toProtosLoop_skip _ _ _ _ _ _ rfl
  · intro messageName k xs pre post
    rw [toProtos_split, toProtosLoop_skip messageName k (.slice xs) post _ pre.length rfl]
  · intro xs vs h
    simp [decode, h]
  · intro ord members
    cases hd : decodeMembers members [] with
    | error e =>
      rw [toProtoBuf_eq, unmarshal_error _ e (by simp [decode, hd])]
      simp
    | ok obj =>
      rw [toProtoBuf_object ord members obj hd]
      simp
  · intro ord hord
    rw [toProtoBuf_single ord hord _
      [("list", .slice [.float64 1, .float64 2, .float64 3])] []
      (by simp +decide [decodeMembers, decode, decodeElems, mapSet, fitsFloat64_of_small])
      (by simp [toProtos, toProtosLoop, typeWithNameAndIndex]) (by simp)]
    simp +decide [String.join]

/-- C7, at `{"list":[1,2,3]}` in the insertion order. -/
theorem array_skipped_witness :
    insertionOrder.Admissible ∧
    (∃ obj, decodeMembers [("list", Json.array [.number 1, .number 2, .number 3])] [] =
      .ok obj) ∧
    toProtoBuf insertionOrder
        (.document (.object [("list", .array [.number 1, .number 2, .number 3])])) =
      (header ++ "message RootBuf \x7b\n\x7d\n\n", none) :=
  ⟨insertionOrder_admissible,
   ⟨[("list", .slice [.float64 1, .float64 2, .float64 3])],
    by simp +decide [decodeMembers, decode, decodeElems, mapSet, fitsFloat64_of_small]⟩,
   array_skipped.2.2.2.2.2 insertionOrder insertionOrder_admissible⟩

/-- C8, as stated, fails: in `{"n":1}` the key `n` holds the whole number 1, and
the field emitted for it has type `float64`, not `int32` or `int64`, in every
admissible range order. -/
theorem whole_number_counterexample :
    (1 : ℚ).isInt = true ∧
    decodeMembers [("n", .number 1)] [] = .ok [("n", .float64 1)] ∧
    toProtos "RootBuf" [("n", .float64 1)] = [("RootBuf", [("n", "\tfloat64 n = 0 ;")])] ∧
    toProtoBuf insertionOrder (.document (.object [("n", .number 1)])) =
      (header ++ "message RootBuf \x7b\n\tfloat64 n = 0 ;\n\x7d\n\n", none) ∧
    "\tfloat64 n = 0 ;" ≠ (nameit "int32" "n" 0).1 ∧
    "\tfloat64 n = 0 ;" ≠ (nameit "int64" "n" 0).1 ∧
    (∀ ord : RangeOrder, ord.Admissible →
      toProtoBuf ord (.document (.object [("n", .number 1)])) =
        (header ++ "message RootBuf \x7b\n\tfloat64 n = 0 ;\n\x7d\n\n", none)) := by
  have hdec : decodeMembers [("n", .number 1)] [] = .ok [("n", .float64 1)] := by
    simp +decide [decodeMembers, decode, mapSet, fitsFloat64_of_small]
  have hres : toProtos "RootBuf" [("n", .float64 1)] =
      [("RootBuf", [("n", "\tfloat64 n = 0 ;")])] := by
    simp +decide [toProtos, toProtosLoop, typeWithNameAndIndex, nameit, setField, mapGet,
      mapSet]
  have hall : ∀ ord : RangeOrder, ord.Admissible →
      toProtoBuf ord (.document (.object [("n", .number 1)])) =
        (header ++ "message RootBuf \x7b\n\tfloat64 n = 0 ;\n\x7d\n\n", none) := by
    intro ord hord
    rw [toProtoBuf_single ord hord _ _ _ hdec hres (by simp)]
    simp +decide [String.join]
  exact ⟨by decide, hdec, hres, hall _ insertionOrder_admissible, by decide, by decide, hall⟩

/-- C8 (amended): every JSON number within the float64 range, whole or
fractional, is decoded to a `float64`, and a number outside that range makes
the decoder fail; no decoded value is an `int`, `int32` or `int64`; for a
`float64` under key `k` at index `i`, `typeWithNameAndIndex` returns the line
`\tfloat64 k = i ;`; a one-key document `{k: number}` converts to the `RootBuf`
block with that one line; and in any document that decodes, whose decoded root
holds a number under `k` at position `i` and has no non-empty nested object
under a key named `RootBuf`, the message `RootBuf` holds that line for `k`, and
the line is in the block of `RootBuf` in the text, in every admissible range
order. -/
theorem number_field :
    (∀ q : ℚ, fitsFloat64 q = true → decode (.number q) = .ok (.float64 q)) ∧
    (∀ q : ℚ, fitsFloat64 q = false → decode (.number q) = .error rangeError) ∧
    (∀ (k : String) (q : ℚ) (i : Nat), typeWithNameAndIndex k (.float64 q) i =
      ("\tfloat64 " ++ k ++ " = " ++ toString i ++ " ;", [])) ∧
    (∀ (j : Json) (v : GoValue) (n : Int), decode j = .ok v →
      v ≠ .int n ∧ v ≠ .int32 n ∧ v ≠ .int64 n) ∧
    (∀ (j : Json) (q : ℚ), decode j = .ok (.float64 q) → j = .number q) ∧
    (∀ (members : List (String × Json)) (obj : GoMap GoValue) (k : String) (v : GoValue),
      decodeMembers members [] = .ok obj → (k, v) ∈ obj →
      ∃ j, (k, j) ∈ members ∧ decode j = .ok v) ∧
    (∀ (ord : RangeOrder) (k : String) (q : ℚ), ord.Admissible → fitsFloat64 q = true →
      toProtoBuf ord (.document (.object [(k, .number q)])) =
        (header ++ ("message RootBuf \x7b\n" ++
          ("\tfloat64 " ++ k ++ " = " ++ toString 0 ++ " ;") ++ "\n" ++ "\x7d" ++ "\n\n"),
          none)) ∧
    (∀ (ord : RangeOrder) (members : List (String × Json)) (obj : GoMap GoValue) (i : Nat)
      (k : String) (q : ℚ), ord.Admissible → decodeMembers members [] = .ok obj →
      obj[i]? = some (k, .float64 q) → "RootBuf" ∉ nestedNames obj →
      ∃ fields, mapGet (toProtos "RootBuf" obj) "RootBuf" = some fields ∧
        mapGet fields k = some ("\tfloat64 " ++ k ++ " = " ++ toString i ++ " ;") ∧
        toPrettyProtoString ord "RootBuf" fields ∈
          toPrettyStrings ord (toProtos "RootBuf" obj) ∧
        (k, "\tfloat64 " ++ k ++ " = " ++ toString i ++ " ;") ∈ ord.lines "RootBuf" fields) := by
  have hlit : "\t" ++ "float64" ++ " " = "\tfloat64 " := by decide
  have htype : ∀ (k : String) (q : ℚ) (i : Nat), typeWithNameAndIndex k (.float64 q) i =
      ("\tfloat64 " ++ k ++ " = " ++ toString i ++ " ;", []) := by
    intro k q i
    simp only [typeWithNameAndIndex, nameit, ← hlit]
  have hne : ∀ (k : String) (q : ℚ) (i : Nat),
      (typeWithNameAndIndex k (.float64 q) i).1 ≠ "" :=
    fun k q i => nameit_fst_ne_empty _ _ _
  refine ⟨fun q h => decode_number q h, ?_, htype, ?_, ?_, ?_, ?_, ?_⟩
  · intro q h
    simp [decode, h]
  · intro j v n h
    cases j with
    | null => simp only [decode, Except.ok.injEq] at h; subst h; simp
    | bool b => simp only [decode, Except.ok.injEq] at h; subst h; simp
    | string s => simp only [decode, Except.ok.injEq] at h; subst h; simp
    | number q =>
      simp only [decode] at h
      split at h
      · simp only [Except.ok.injEq] at h; subst h; simp
      · simp at h
    | array xs =>
      simp only [decode] at h
      split at h
      · simp only [Except.ok.injEq] at h; subst h; simp
      · simp at h
    | object ms =>
      simp only [decode] at h
      split at h
      · simp only [Except.ok.injEq] at h; subst h; simp
      · simp at h
  · intro j q h
    cases j with
    | number q1 =>
      simp only [decode] at h
      split at h
      · simp only [Except.ok.injEq, GoValue.float64.injEq] at h; rw [h]
      · simp at h
    | array xs => simp only [decode] at h; split at h <;> simp at h
    | object ms => simp only [decode] at h; split at h <;> simp at h
    | _ => simp [decode] at h
  · intro members obj k v hdec hmem
    rcases mem_decodeMembers members [] obj hdec (k, v) hmem with h | h
    · simp at h
    · exact h
  · intro ord k q hord hq
    have hp : toProtos "RootBuf" [(k, .float64 q)] =
        [("RootBuf", [(k, "\tfloat64 " ++ k ++ " = " ++ toString 0 ++ " ;")])] := by
      rw [toProtos, toProtosLoop_scalar "RootBuf" k (.float64 q) [] _ 0 rfl (hne k q 0),
        toProtosLoop_nil, htype]
      simp [setField, mapGet, mapSet]
    have hd : decodeMembers [(k, Json.number q)] [] = .ok [(k, .float64 q)] := by
      simp [decodeMembers, decode, hq, mapSet]
    rw [toProtoBuf_single ord hord _ _ _ hd hp (by simp)]
    simp [String.join, String.append_assoc]
  · intro ord members obj i k q hord hdec hi hns
    have hk := nodup_decodeMembers members [] obj hdec (by simp [mapKeys])
    have hget := mapGet_toProtos_self "RootBuf" obj hns hk
    have hline : mapGet (fieldLines obj 0) k =
        some ("\tfloat64 " ++ k ++ " = " ++ toString i ++ " ;") := by
      apply mapGet_fieldLines obj hk i k _ _ hi
      rw [fieldLine_scalar k (.float64 q) i rfl (hne k q i), htype]
    refine ⟨fieldLines obj 0, hget, hline, ?_, ?_⟩
    · rw [toPrettyStrings_eq_map]
      exact List.mem_map.2 ⟨("RootBuf", fieldLines obj 0),
        (hord.1 _).mem_iff.2 (mem_of_mapGet _ _ _ hget), rfl⟩
    · exact (hord.2 _ _).mem_iff.2 (mem_of_mapGet _ _ _ hline)

/-- C8 (amended), at `{"s":"x","n":2.5}` in the reverse range order: `n` at position 1. -/
theorem number_field_witness :
    reverseOrder.Admissible ∧
    decodeMembers [("s", Json.string "x"), ("n", .number (5 / 2))] [] =
      .ok [("s", .str "x"), ("n", .float64 (5 / 2))] ∧
    ([("s", GoValue.str "x"), ("n", .float64 (5 / 2))] : GoMap GoValue)[1]? =
      some ("n", .float64 (5 / 2)) ∧
    "RootBuf" ∉ nestedNames [("s", GoValue.str "x"), ("n", .float64 (5 / 2))] ∧
    ∃ fields, mapGet (toProtos "RootBuf" [("s", GoValue.str "x"), ("n", .float64 (5 / 2))])
        "RootBuf" = some fields ∧
      mapGet fields "n" = some ("\tfloat64 " ++ "n" ++ " = " ++ toString 1 ++ " ;") ∧
      toPrettyProtoString reverseOrder "RootBuf" fields ∈
        toPrettyStrings reverseOrder
          (toProtos "RootBuf" [("s", GoValue.str "x"), ("n", .float64 (5 / 2))]) ∧
      ("n", "\tfloat64 " ++ "n" ++ " = " ++ toString 1 ++ " ;") ∈
        reverseOrder.lines "RootBuf" fields :=
  ⟨reverseOrder_admissible,
   by simp +decide [decodeMembers, decode, mapSet, fitsFloat64_five_halves],
   rfl,
   by simp +decide [nestedNames, nestedObjects],
   number_field.2.2.2.2.2.2.2 reverseOrder
    [("s", Json.string "x"), ("n", .number (5 / 2))] _ 1 "n" (5 / 2) reverseOrder_admissible
    (by simp +decide [decodeMembers, decode, mapSet, fitsFloat64_five_halves]) rfl
    (by simp +decide [nestedNames, nestedObjects])⟩

/-- C9, evaluated on the code: for a boolean the `%v` of the inner default
prints the value, so the text in type position is `true` for `true` and `false`
for `false`; the two lines differ, and neither names the type `bool`. -/
theorem bool_type_text :
    (∀ (k : String) (i : Nat),
      typeWithNameAndIndex k (.bool true) i = nameit "true" k i ∧
      typeWithNameAndIndex k (.bool false) i = nameit "false" k i) ∧
    typeWithNameAndIndex "b" (.bool true) 0 = ("\ttrue b = 0 ;", []) ∧
    typeWithNameAndIndex "b" (.bool false) 0 = ("\tfalse b = 0 ;", []) ∧
    (typeWithNameAndIndex "b" (.bool true) 0).1 ≠ (typeWithNameAndIndex "b" (.bool false) 0).1 ∧
    (∀ ord : RangeOrder, ord.Admissible →
      toProtoBuf ord (.document (.object [("b", .bool true)])) =
        (header ++ "message RootBuf \x7b\n\ttrue b = 0 ;\n\x7d\n\n", none)) := by
  refine ⟨fun _ _ => ⟨rfl, rfl⟩, rfl, rfl, by decide, ?_⟩
  intro ord hord
  rw [toProtoBuf_single ord hord _ [("b", .bool true)] [("b", "\ttrue b = 0 ;")]
    (by simp [decodeMembers, decode, mapSet])
    (by simp +decide [toProtos, toProtosLoop, typeWithNameAndIndex, nameit, setField, mapGet,
      mapSet]) (by simp)]
  simp +decide [String.join]

/-- C9, at `{"b":true}` in the insertion order. -/
theorem bool_type_text_witness :
    insertionOrder.Admissible ∧
    toProtoBuf insertionOrder (.document (.object [("b", .bool true)])) =
      (header ++ "message RootBuf \x7b\n\ttrue b = 0 ;\n\x7d\n\n", none) :=
  ⟨insertionOrder_admissible, bool_type_text.2.2.2.2 insertionOrder insertionOrder_admissible⟩

/-- C10: for message sets with pairwise distinct names, `mergemaps map1 map2`
defines exactly the names defined by `map1` or by `map2`, again pairwise
distinct; a name defined by `map2` maps to the definition of `map2`, also when
`map1` defines it; a name defined by `map1` only maps to the definition of `map1`. -/
theorem mergemaps_spec (map1 map2 : SchemaSet) (h1 : (mapKeys map1).Nodup)
    (h2 : (mapKeys map2).Nodup) :
    (∀ n, n ∈ mapKeys (mergemaps map1 map2) ↔ n ∈ mapKeys map1 ∨ n ∈ mapKeys map2) ∧
    (mapKeys (mergemaps map1 map2)).Nodup ∧
    (∀ n d, mapGet map2 n = some d → mapGet (mergemaps map1 map2) n = some d) ∧
    (∀ n, mapGet map2 n = none → mapGet (mergemaps map1 map2) n = mapGet map1 n) :=
  ⟨mem_mapKeys_mergemaps map1 map2, nodup_mergemaps map1 map2,
   fun n d h => mapGet_mergemaps_right map1 map2 n d h2 h,
   fun n h => mapGet_mergemaps_left map1 map2 n h1 h⟩

/-- C10, at `{A: {x}, B: {}}` merged with `{B: {y}, C: {}}`. -/
theorem mergemaps_spec_witness :
    (mapKeys ([("A", [("x", "1")]), ("B", [])] : SchemaSet)).Nodup ∧
    (mapKeys ([("B", [("y", "2")]), ("C", [])] : SchemaSet)).Nodup ∧
    (∀ n d, mapGet ([("B", [("y", "2")]), ("C", [])] : SchemaSet) n = some d →
      mapGet (mergemaps [("A", [("x", "1")]), ("B", [])] [("B", [("y", "2")]), ("C", [])]) n =
        some d) :=
  ⟨by simp +decide [mapKeys], by simp +decide [mapKeys],
   (mergemaps_spec _ _ (by simp +decide [mapKeys]) (by simp +decide [mapKeys])).2.2.1⟩

/-- C11, as stated, fails: for `{"foo":"bar"}` the text is the header, the one
block, and then a blank line after it, in every admissible range order; it is
not the header followed by the blocks with blank lines only between them. -/
theorem rendered_text_counterexample :
    decodeMembers [("foo", .string "bar")] [] = .ok [("foo", .str "bar")] ∧
    toPrettyStrings insertionOrder (toProtos "RootBuf" [("foo", .str "bar")]) =
      ["message RootBuf \x7b\n\tstring  foo = 0 ;\n\x7d"] ∧
    toProtoBuf insertionOrder (.document (.object [("foo", .string "bar")])) =
      (header ++ "message RootBuf \x7b\n\tstring  foo = 0 ;\n\x7d" ++ "\n\n", none) ∧
    header ++ "message RootBuf \x7b\n\tstring  foo = 0 ;\n\x7d" ++ "\n\n" ≠
      header ++ String.intercalate "\n\n" ["message RootBuf \x7b\n\tstring  foo = 0 ;\n\x7d"] ∧
    (∀ ord : RangeOrder, ord.Admissible →
      toProtoBuf ord (.document (.object [("foo", .string "bar")])) =
        (header ++ "message RootBuf \x7b\n\tstring  foo = 0 ;\n\x7d" ++ "\n\n", none)) := by
  have hdec : decodeMembers [("foo", .string "bar")] [] = .ok [("foo", .str "bar")] := by
    simp [decodeMembers, decode, mapSet]
  have hres : toProtos "RootBuf" [("foo", .str "bar")] =
      [("RootBuf", [("foo", "\tstring  foo = 0 ;")])] := by
    simp +decide [toProtos, toProtosLoop, typeWithNameAndIndex, nameit, setField, mapGet,
      mapSet]
  have hall : ∀ ord : RangeOrder, ord.Admissible →
      toProtoBuf ord (.document (.object [("foo", .string "bar")])) =
        (header ++ "message RootBuf \x7b\n\tstring  foo = 0 ;\n\x7d" ++ "\n\n", none) := by
    intro ord hord
    rw [toProtoBuf_single ord hord _ _ _ hdec hres (by simp)]
    simp +decide [String.join]
  refine ⟨hdec, ?_, hall _ insertionOrder_admissible, by decide, hall⟩
  rw [hres]
  simp +decide [toPrettyStrings, toPrettyProtoString, insertionOrder]

/-- C11 (amended): for every successful conversion, in every admissible range
order, the text is the header `syntax = "proto3";`, blank line,
`package jsonbuf;`, blank line, written once at the start, followed by one block
per message of the result in the order in which the range visits the messages,
each block being `message <Name> {`, newline, every field line of the message
in the order in which the range visits the lines, each followed by a newline,
and `}`, and each block, the last one included, followed by a blank line. -/
theorem rendered_text (ord : RangeOrder) (hord : ord.Admissible) (reader : Reader)
    (h : (toProtoBuf ord reader).2 = none) :
    header = "syntax = \"proto3\";" ++ "\n" ++ "\n" ++ "package jsonbuf;" ++ "\n" ++ "\n" ∧
    (unmarshal reader).2 = none ∧
    (toProtoBuf ord reader).1 = header ++ String.join
      ((ord.messages (toProtos "RootBuf" (unmarshal reader).1)).map (fun msg =>
        "message " ++ msg.1 ++ " \x7b\n" ++
          String.join ((ord.lines msg.1 msg.2).map (fun l => l.2 ++ "\n")) ++
          "\x7d" ++ "\n\n")) ∧
    (ord.messages (toProtos "RootBuf" (unmarshal reader).1)).Perm
      (toProtos "RootBuf" (unmarshal reader).1) ∧
    (∀ msg : String × GoMap String, (ord.lines msg.1 msg.2).Perm msg.2) ∧
    (∀ strings : SchemaSet, toPrettyStrings ord strings =
      (ord.messages strings).map (fun msg =>
        "message " ++ msg.1 ++ " \x7b\n" ++
          String.join ((ord.lines msg.1 msg.2).map (fun l => l.2 ++ "\n")) ++ "\x7d")) := by
  have hall : ∀ strings : SchemaSet, toPrettyStrings ord strings =
      (ord.messages strings).map (fun msg =>
        "message " ++ msg.1 ++ " \x7b\n" ++
          String.join ((ord.lines msg.1 msg.2).map (fun l => l.2 ++ "\n")) ++ "\x7d") := by
    intro strings
    rw [toPrettyStrings_eq_map]
    exact List.map_congr_left (fun msg _ => toPrettyProtoString_eq ord msg.1 msg.2)
  rw [toProtoBuf_eq] at h ⊢
  cases hu : (unmarshal reader).2 with
  | some err => rw [hu] at h; simp at h
  | none =>
    refine ⟨by decide, rfl, ?_, hord.1 _, fun msg => hord.2 _ _, hall⟩
    simp only [hall, List.map_map]
    rfl

/-- C11 (amended), at `{"a":{"b":"c"}}` in the reverse range order: the block of
`a` stands before the block of `RootBuf`. -/
theorem rendered_text_witness :
    reverseOrder.Admissible ∧
    (toProtoBuf reverseOrder (.document (.object [("a", .object [("b", .string "c")])]))).2 =
      none ∧
    toProtoBuf reverseOrder (.document (.object [("a", .object [("b", .string "c")])])) =
      (header ++ "message a \x7b\n\tstring  b = 0 ;\n\x7d\n\n" ++
        "message RootBuf \x7b\n\ta a = 0;\n\x7d\n\n", none) ∧
    (toProtoBuf reverseOrder (.document (.object [("a", .object [("b", .string "c")])]))).1 =
      header ++ String.join
      ((reverseOrder.messages (toProtos "RootBuf"
        (unmarshal (.document (.object [("a", .object [("b", .string "c")])]))).1)).map
        (fun msg =>
          "message " ++ msg.1 ++ " \x7b\n" ++
            String.join ((reverseOrder.lines msg.1 msg.2).map (fun l => l.2 ++ "\n")) ++
            "\x7d" ++ "\n\n")) :=
  ⟨reverseOrder_admissible,
   by rw [toProtoBuf_object reverseOrder _ [("a", .object [("b", .str "c")])]
      (by simp [decodeMembers, decode, mapSet])],
   by simp +decide [toProtoBuf, unmarshal, decode, decodeMembers, toProtos, toProtosLoop,
      typeWithNameAndIndex, nameit, setField, mapGet, mapSet, mergemaps, refField,
      toPrettyStrings, toPrettyProtoString, header, reverseOrder],
   (rendered_text reverseOrder reverseOrder_admissible _
    (by rw [toProtoBuf_object reverseOrder _ [("a", .object [("b", .str "c")])]
      (by simp [decodeMembers, decode, mapSet])])).2.2.1⟩

/-- A text that ends in a blank and `;` is not a text that ends in a number and `;`. -/
theorem blank_semicolon_ne (a b : String) (j : Nat) : a ++ " ;" ≠ b ++ toString j ++ ";" := by
  intro h
  obtain ⟨hne, hdig, _⟩ := toString_nat_spec j
  have hd := congrArg (fun s : String => s.data.reverse) h
  simp only [String.data_append, List.reverse_append] at hd
  have h1 : (" ;" : String).data.reverse = [';', ' '] := by decide
  have h2 : (";" : String).data.reverse = [';'] := by decide
  rw [h1, h2] at hd
  cases hr : (toString j).data.reverse with
  | nil => exact hne (by simpa using hr)
  | cons d ds =>
    rw [hr] at hd
    simp only [List.cons_append, List.nil_append, List.cons.injEq, true_and] at hd
    have hdd : d.isDigit = true := hdig d (by
      rw [← List.mem_reverse, hr]
      exact List.mem_cons_self _ _)
    rw [← hd.1] at hdd
    exact absurd hdd (by decide)

theorem nameit_ne_refField (t n n1 k1 : String) (i j : Nat) :
    (nameit t n i).1 ≠ refField n1 k1 j := by
  have := blank_semicolon_ne ("\t" ++ t ++ " " ++ n ++ " = " ++ toString i)
    ("\t" ++ n1 ++ " " ++ k1 ++ " = ") j
  simpa [nameit, refField, String.append_assoc] using this

/-- C12, evaluated on the code: the line of a scalar field is written by `nameit`
with a blank between the number and the `;`, so it never has the form tab,
type, blank, name, ` = `, number, `;`; the reference line of a nested message,
written in `toProtos`, has that form.  For `{"foo":"bar"}` the one line is
`\tstring  foo = 0 ;`, and it is what `toProtoBuf` prints. -/
theorem field_line_form :
    (∀ (t n : String) (i : Nat),
      (nameit t n i).1 = "\t" ++ t ++ " " ++ n ++ " = " ++ toString i ++ " ;") ∧
    (∀ (t n t1 n1 : String) (i j : Nat),
      (nameit t n i).1 ≠ "\t" ++ t1 ++ " " ++ n1 ++ " = " ++ toString j ++ ";") ∧
    (∀ (nestedName k : String) (counter : Nat),
      refField nestedName k counter =
        "\t" ++ nestedName ++ " " ++ k ++ " = " ++ toString counter ++ ";") ∧
    toProtos "RootBuf" [("foo", .str "bar")] =
      [("RootBuf", [("foo", "\tstring  foo = 0 ;")])] ∧
    (∀ ord : RangeOrder, ord.Admissible →
      toProtoBuf ord (.document (.object [("foo", .string "bar")])) =
        (header ++ "message RootBuf \x7b\n\tstring  foo = 0 ;\n\x7d\n\n", none)) := by
  refine ⟨fun _ _ _ => rfl, ?_, fun _ _ _ => rfl, ?_, ?_⟩
  · intro t n t1 n1 i j
    exact nameit_ne_refField t n t1 n1 i j
  · simp +decide [toProtos, toProtosLoop, typeWithNameAndIndex, nameit, setField, mapGet,
      mapSet]
  · intro ord hord
    rw [toProtoBuf_single ord hord _ [("foo", .str "bar")] [("foo", "\tstring  foo = 0 ;")]
      (by simp [decodeMembers, decode, mapSet])
      (by simp +decide [toProtos, toProtosLoop, typeWithNameAndIndex, nameit, setField, mapGet,
        mapSet]) (by simp)]
    simp +decide [String.join]

/-- C12, at `{"foo":"bar"}` in the insertion order. -/
theorem field_line_form_witness :
    insertionOrder.Admissible ∧
    toProtoBuf insertionOrder (.document (.object [("foo", .string "bar")])) =
      (header ++ "message RootBuf \x7b\n\tstring  foo = 0 ;\n\x7d\n\n", none) :=
  ⟨insertionOrder_admissible,
   field_line_form.2.2.2.2 insertionOrder insertionOrder_admissible⟩

/-- C13, as stated, fails: for `{"foo":"bar"}` the one field declaration carries
the number 0, which is not positive. -/
theorem positive_number_counterexample :
    toProtos "RootBuf" [("foo", .str "bar")] =
      [("RootBuf", [("foo", "\tstring  foo = 0 ;")])] ∧
    fieldNumber "\tstring  foo = 0 ;" = some 0 ∧ ¬ (1 ≤ 0) := by
  refine ⟨?_, by decide, by decide⟩
  simp +decide [toProtos, toProtosLoop, typeWithNameAndIndex, nameit, setField, mapGet, mapSet]

/-- C13 (amended): every field declaration emitted by `toProtos`, for every
object and every key-processing order, is the line of a key of an object of the
tree and carries as field number the position of that key in its object,
counted from 0: a natural number below the number of keys, 0 for the key
processed first. -/
theorem field_number_position (messageName : String) (obj : GoMap GoValue) :
    ∀ e ∈ toProtos messageName obj, ∀ l ∈ e.2,
      ∃ o ∈ obj :: (nestedObjects obj).map Prod.snd, ∃ j v,
        j < o.length ∧ o[j]? = some (l.1, v) ∧ fieldLine l.1 v j = some l.2 ∧
          fieldNumber l.2 = some j := by
  intro e he l hl
  obtain ⟨o, ho, j, v, hj, hfl⟩ := lines_toProtos obj messageName e he l hl
  refine ⟨o, ho, j, v, ?_, hj, hfl, fieldNumber_fieldLine _ _ _ _ hfl⟩
  by_contra hlt
  rw [List.getElem?_eq_none (by omega)] at hj
  exact absurd hj (by simp)

/-- C13 (amended), at `{"foo":"bar"}` under `RootBuf`: the line of `foo` carries
the position 0. -/
theorem field_number_position_witness :
    (("RootBuf", [("foo", "\tstring  foo = 0 ;")]) : String × GoMap String) ∈
      toProtos "RootBuf" [("foo", .str "bar")] ∧
    (("foo", "\tstring  foo = 0 ;") : String × String) ∈
      [(("foo", "\tstring  foo = 0 ;") : String × String)] ∧
    ∃ o ∈ [("foo", GoValue.str "bar")] :: (nestedObjects [("foo", GoValue.str "bar")]).map Prod.snd,
      ∃ j v, j < o.length ∧ o[j]? = some ("foo", v) ∧
        fieldLine "foo" v j = some "\tstring  foo = 0 ;" ∧
        fieldNumber "\tstring  foo = 0 ;" = some j :=
  ⟨by simp +decide [toProtos, toProtosLoop, typeWithNameAndIndex, nameit, setField, mapGet,
      mapSet],
   by simp,
   field_number_position "RootBuf" [("foo", .str "bar")]
    ("RootBuf", [("foo", "\tstring  foo = 0 ;")])
    (by simp +decide [toProtos, toProtosLoop, typeWithNameAndIndex, nameit, setField, mapGet,
      mapSet])
    ("foo", "\tstring  foo = 0 ;") (by simp)⟩

/-- C14: a document whose decoded root is not an object makes `unmarshal` return
the error `Could not cast raw to json-map.` and `toProtoBuf` return that error
with the empty text, in every range order; an array, a string, a number, null,
true and false never decode to an object; a document whose decoded root is an
object makes `unmarshal` return that object and no error. -/
theorem non_object_root :
    (∀ (ord : RangeOrder) (j : Json) (v : GoValue), decode j = .ok v →
      (∀ m, v ≠ .object m) →
      unmarshal (.document j) = ([], some "Could not cast raw to json-map.") ∧
      toProtoBuf ord (.document j) = ("", some "Could not cast raw to json-map.")) ∧
    (∀ (j : Json) (m : GoMap GoValue), decode j = .ok (.object m) →
      unmarshal (.document j) = (m, none)) ∧
    (∀ (xs : List Json) (s : String) (q : ℚ) (b : Bool) (m : GoMap GoValue),
      decode (.array xs) ≠ .ok (.object m) ∧ decode (.string s) ≠ .ok (.object m) ∧
      decode (.number q) ≠ .ok (.object m) ∧ decode .null ≠ .ok (.object m) ∧
      decode (.bool b) ≠ .ok (.object m)) ∧
    (∀ (s : String) (b : Bool), decode (.string s) = .ok (.str s) ∧
      decode .null = .ok .nil ∧ decode (.bool b) = .ok (.bool b)) ∧
    (∀ (members : List (String × Json)) (obj : GoMap GoValue),
      decodeMembers members [] = .ok obj →
      unmarshal (.document (.object members)) = (obj, none)) ∧
    (∀ ord : RangeOrder,
      toProtoBuf ord (.document (.array [.number 1, .number 2, .number 3])) =
        ("", some "Could not cast raw to json-map.")) := by
  have h1 : ∀ (j : Json) (v : GoValue), decode j = .ok v → (∀ m, v ≠ .object m) →
      unmarshal (.document j) = ([], some "Could not cast raw to json-map.") := by
    intro j v hd hv
    cases v with
    | object m => exact absurd rfl (hv m)
    | _ => simp [unmarshal, hd]
  have h123 : decode (.array [.number 1, .number 2, .number 3]) =
      .ok (.slice [.float64 1, .float64 2, .float64 3]) := by
    simp +decide [decode, decodeElems, fitsFloat64_of_small]
  refine ⟨?_, ?_, ?_, ?_, ?_, ?_⟩
  · intro ord j v hd hv
    refine ⟨h1 j v hd hv, ?_⟩
    rw [toProtoBuf_eq, h1 j v hd hv]
  · intro j m hd
    simp [unmarshal, hd]
  · intro xs s q b m
    refine ⟨?_, by simp [decode], ?_, by simp [decode], by simp [decode]⟩
    · intro h
      simp only [decode] at h
      split at h <;> simp at h
    · intro h
      simp only [decode] at h
      split at h <;> simp at h
  · intro s b
    simp [decode]
  · exact unmarshal_object
  · intro ord
    rw [toProtoBuf_eq, h1 _ _ h123 (by simp)]

/-- C14, at the document `[1,2,3]` in the insertion order. -/
theorem non_object_root_witness :
    decode (.array [.number 1, .number 2, .number 3]) =
      .ok (.slice [.float64 1, .float64 2, .float64 3]) ∧
    (∀ m, GoValue.slice [.float64 1, .float64 2, .float64 3] ≠ .object m) ∧
    unmarshal (.document (.array [.number 1, .number 2, .number 3])) =
      ([], some "Could not cast raw to json-map.") ∧
    toProtoBuf insertionOrder (.document (.array [.number 1, .number 2, .number 3])) =
      ("", some "Could not cast raw to json-map.") :=
  ⟨by simp +decide [decode, decodeElems, fitsFloat64_of_small], by simp,
   non_object_root.1 insertionOrder (.array [.number 1, .number 2, .number 3])
    (.slice [.float64 1, .float64 2, .float64 3])
    (by simp +decide [decode, decodeElems, fitsFloat64_of_small]) (by simp)⟩

/-- C15: in every range order `toProtoBuf` returns the error of `unmarshal`
unchanged, so it fails exactly when `unmarshal` fails, and then returns the
empty text; a read error, an error for text that is not well-formed and an
error of the decoder are returned by `unmarshal` as they are; when `unmarshal`
succeeds `toProtoBuf` returns no error, whatever the object holds. -/
theorem error_propagation :
    (∀ (ord : RangeOrder) (reader : Reader),
      (toProtoBuf ord reader).2 = (unmarshal reader).2) ∧
    (∀ (ord : RangeOrder) (reader : Reader), (unmarshal reader).2 ≠ none →
      (toProtoBuf ord reader).1 = "") ∧
    (∀ (ord : RangeOrder) (reader : Reader), (unmarshal reader).2 = none →
      (toProtoBuf ord reader).2 = none) ∧
    (∀ (ord : RangeOrder) (readerr : Error),
      unmarshal (.failing readerr) = ([], some readerr) ∧
      toProtoBuf ord (.failing readerr) = ("", some readerr)) ∧
    (∀ (ord : RangeOrder) (jerr : Error),
      unmarshal (.malformed jerr) = ([], some jerr) ∧
      toProtoBuf ord (.malformed jerr) = ("", some jerr)) ∧
    (∀ (ord : RangeOrder) (j : Json) (jerr : Error), decode j = .error jerr →
      unmarshal (.document j) = ([], some jerr) ∧
      toProtoBuf ord (.document j) = ("", some jerr)) := by
  have h : ∀ (ord : RangeOrder) (reader : Reader),
      (toProtoBuf ord reader).2 = (unmarshal reader).2 := by
    intro ord reader
    rw [toProtoBuf_eq]
    cases (unmarshal reader).2 <;> rfl
  refine ⟨h, ?_, ?_, ?_, ?_, ?_⟩
  · intro ord reader hne
    rw [toProtoBuf_eq]
    cases hu : (unmarshal reader).2 with
    | none => exact absurd hu hne
    | some err => rfl
  · intro ord reader hu
    rw [h, hu]
  · intro ord readerr
    exact ⟨rfl, by rw [toProtoBuf_eq]; rfl⟩
  · intro ord jerr
    exact ⟨rfl, by rw [toProtoBuf_eq]; rfl⟩
  · intro ord j jerr hd
    exact ⟨unmarshal_error j jerr hd, by rw [toProtoBuf_eq, unmarshal_error j jerr hd]⟩

/-- C15, at a reader that fails, at the document `{"a":[true]}` and at the
document `{"n":1e999}`. -/
theorem error_propagation_witness :
    (unmarshal (.failing "unexpected EOF")).2 ≠ none ∧
    (toProtoBuf insertionOrder (.failing "unexpected EOF")).1 = "" ∧
    (unmarshal (.document (.object [("a", .array [.bool true])]))).2 = none ∧
    (toProtoBuf insertionOrder (.document (.object [("a", .array [.bool true])]))).2 = none ∧
    decode (.object [("n", .number (10 ^ 999))]) = .error rangeError ∧
    toProtoBuf insertionOrder (.document (.object [("n", .number (10 ^ 999))])) =
      ("", some rangeError) :=
  ⟨by simp [unmarshal], error_propagation.2.1 insertionOrder _ (by simp [unmarshal]),
   by simp [unmarshal, decode, decodeMembers, decodeElems, mapSet],
   error_propagation.2.2.1 insertionOrder _
    (by simp [unmarshal, decode, decodeMembers, decodeElems, mapSet]),
   by simp [decode, decodeMembers, fitsFloat64_huge],
   (error_propagation.2.2.2.2.2 insertionOrder _ rangeError
    (by simp [decode, decodeMembers, fitsFloat64_huge])).2⟩

/-- C16: `toProtos` is a total function that satisfies the recursion of the
source on every object tree: it runs the loop from the empty message, the loop
ends on the empty key list and otherwise does one pass and goes on with the
remaining keys; the only call of `toProtos` inside a pass is on the map held by
the value of the key of that pass, which is strictly smaller than the object. -/
theorem toProtos_total :
    (∀ (messageName : String) (unknowns : GoMap GoValue),
      toProtos messageName unknowns =
        toProtosLoop messageName unknowns [(messageName, [])] 0) ∧
    (∀ (messageName : String) (res : SchemaSet) (counter : Nat),
      toProtosLoop messageName [] res counter = res) ∧
    (∀ (messageName k : String) (v : GoValue) (rest : GoMap GoValue) (res : SchemaSet)
      (counter : Nat),
      toProtosLoop messageName ((k, v) :: rest) res counter =
        toProtosLoop messageName rest
          (if (typeWithNameAndIndex k v counter).1 ≠ "" then
            setField
              (if 0 < (typeWithNameAndIndex k v counter).2.length then
                mergemaps (setField res messageName k (refField k k counter))
                  (toProtos k (typeWithNameAndIndex k v counter).2)
              else res)
              messageName k (typeWithNameAndIndex k v counter).1
          else
            (if 0 < (typeWithNameAndIndex k v counter).2.length then
              mergemaps (setField res messageName k (refField k k counter))
                (toProtos k (typeWithNameAndIndex k v counter).2)
            else res))
          (counter + 1)) ∧
    (∀ (unknowns : GoMap GoValue) (k : String) (v : GoValue) (counter : Nat),
      (k, v) ∈ unknowns → 0 < (typeWithNameAndIndex k v counter).2.length →
      v = .object (typeWithNameAndIndex k v counter).2 ∧
        sizeOf (typeWithNameAndIndex k v counter).2 < sizeOf unknowns) := by
  refine ⟨?_, toProtosLoop_nil, ?_, ?_⟩
  · intro messageName unknowns
    rw [toProtos]
  · intro messageName k v rest res counter
    rw [toProtosLoop]
    simp only [dite_eq_ite]
  · intro unknowns k v counter hmem hpos
    have hv : v = .object (typeWithNameAndIndex k v counter).2 := by
      cases v <;> simp [typeWithNameAndIndex, nameit] at hpos ⊢
    refine ⟨hv, ?_⟩
    have h1 := List.sizeOf_lt_of_mem hmem
    have h2 : sizeOf (typeWithNameAndIndex k v counter).2 < sizeOf v := by
      conv => rhs; rw [hv]
      simp
    simp only [Prod.mk.sizeOf_spec] at h1
    omega

/-- C16, at the object `{"s":"x","a":{"b":"c"}}` and its key `a`. -/
theorem toProtos_total_witness :
    ("a", GoValue.object [("b", .str "c")]) ∈
      [("s", GoValue.str "x"), ("a", .object [("b", .str "c")])] ∧
    0 < (typeWithNameAndIndex "a" (.object [("b", .str "c")]) 1).2.length ∧
    sizeOf (typeWithNameAndIndex "a" (.object [("b", .str "c")]) 1).2 <
      sizeOf [("s", GoValue.str "x"), ("a", .object [("b", .str "c")])] :=
  ⟨by simp, by simp [typeWithNameAndIndex],
   (toProtos_total.2.2.2 _ "a" _ 1 (by simp) (by simp [typeWithNameAndIndex])).2⟩

/-- C17: values of the kinds int32, int64, float32 and float64 get the line with
the type text `int32`, `int64`, `float32`, `float64`, the name and the index,
and no nested object; a value of the plain int kind gets no text and no nested
object. -/
theorem numeric_kinds (name : String) (count : Nat) (n : Int) (x : ℚ) :
    typeWithNameAndIndex name (.int32 n) count =
      ("\tint32 " ++ name ++ " = " ++ toString count ++ " ;", []) ∧
    typeWithNameAndIndex name (.int64 n) count =
      ("\tint64 " ++ name ++ " = " ++ toString count ++ " ;", []) ∧
    typeWithNameAndIndex name (.float32 x) count =
      ("\tfloat32 " ++ name ++ " = " ++ toString count ++ " ;", []) ∧
    typeWithNameAndIndex name (.float64 x) count =
      ("\tfloat64 " ++ name ++ " = " ++ toString count ++ " ;", []) ∧
    typeWithNameAndIndex name (.int n) count = ("", []) := by
  have h1 : "\t" ++ "int32" ++ " " = "\tint32 " := by decide
  have h2 : "\t" ++ "int64" ++ " " = "\tint64 " := by decide
  have h3 : "\t" ++ "float32" ++ " " = "\tfloat32 " := by decide
  have h4 : "\t" ++ "float64" ++ " " = "\tfloat64 " := by decide
  refine ⟨?_, ?_, ?_, ?_, rfl⟩
  · simp only [typeWithNameAndIndex, nameit, ← h1]
  · simp only [typeWithNameAndIndex, nameit, ← h2]
  · simp only [typeWithNameAndIndex, nameit, ← h3]
  · simp only [typeWithNameAndIndex, nameit, ← h4]

theorem refField_ne_empty (n k : String) (i : Nat) : refField n k i ≠ "" := by
  intro h
  have := congrArg String.data h
  simp [refField, String.data_append] at this

theorem typeWithNameAndIndex_ne_refField (k : String) (v : GoValue) (j : Nat)
    (n1 k1 : String) (i : Nat) : (typeWithNameAndIndex k v j).1 ≠ refField n1 k1 i := by
  cases v <;> first
    | exact nameit_ne_refField _ _ _ _ _ _
    | exact fun h => refField_ne_empty n1 k1 i h.symm

/-- The result for an object with distinct keys and no object among its values:
the one message, with the lines of the keys. -/
theorem toProtos_flat (name : String) (obj : GoMap GoValue) (hk : (mapKeys obj).Nodup)
    (hno : ∀ kv ∈ obj, isObject kv.2 = false) :
    toProtos name obj = [(name, fieldLines obj 0)] := by
  have hnn := nestedNames_eq_nil obj hno
  apply eq_singleton_of_mapGet _ _ _ (nodup_toProtos name obj) _
    (mapGet_toProtos_self name obj (by simp [hnn]) hk)
  intro n hn
  simpa [mem_mapKeys_toProtos, hnn] using hn

/-- C18: for a non-empty object `child` without nested objects and a name `n`,
`toProtos n {n: child}` is the single message `n`, and its fields are those
inferred from `child`, each the text of `typeWithNameAndIndex` for a key of
`child`: the result equals `toProtos n child`, and the reference line
`\tn n = 0;` that the parent stored is not among the fields. -/
theorem shadowed_parent (n : String) (child : GoMap GoValue) (hne : child ≠ [])
    (hk : (mapKeys child).Nodup) (hno : ∀ kv ∈ child, isObject kv.2 = false) :
    ∃ fields, toProtos n [(n, .object child)] = [(n, fields)] ∧
      toProtos n child = [(n, fields)] ∧
      (∀ l ∈ fields, ∃ j v, child[j]? = some (l.1, v) ∧ l.2 = (typeWithNameAndIndex l.1 v j).1) ∧
      (∀ j k v, child[j]? = some (k, v) → (typeWithNameAndIndex k v j).1 ≠ "" →
        mapGet fields k = some (typeWithNameAndIndex k v j).1) ∧
      (∀ l ∈ fields, l.2 ≠ "\t" ++ n ++ " " ++ n ++ " = " ++ toString 0 ++ ";") := by
  have hflat := toProtos_flat n child hk hno
  have hlines : ∀ l ∈ fieldLines child 0,
      ∃ j v, child[j]? = some (l.1, v) ∧ l.2 = (typeWithNameAndIndex l.1 v j).1 := by
    intro l hl
    obtain ⟨j, v, hj, hfl⟩ := mem_fieldLines child 0 l hl
    simp only [Nat.zero_add] at hfl
    refine ⟨j, v, hj, ?_⟩
    rw [fieldLine_of_not_object _ _ _ (hno _ (List.getElem?_mem hj))] at hfl
    by_cases ht : (typeWithNameAndIndex l.1 v j).1 ≠ ""
    · rw [if_pos ht] at hfl
      exact (Option.some.inj hfl).symm
    · simp [ht] at hfl
  refine ⟨fieldLines child 0, ?_, hflat, hlines, ?_, ?_⟩
  · cases child with
    | nil => exact absurd rfl hne
    | cons e m =>
      rw [toProtos, toProtosLoop_object, toProtosLoop_nil, hflat]
      simp [mergemaps, setField, mapGet, mapSet]
  · intro j k v hj ht
    apply mapGet_fieldLines child hk j k v _ hj
    rw [fieldLine_of_not_object _ _ _ (hno _ (List.getElem?_mem hj))]
    simp [ht]
  · intro l hl
    obtain ⟨j, v, _, hl2⟩ := hlines l hl
    rw [hl2]
    exact typeWithNameAndIndex_ne_refField l.1 v j n n 0

/-- C18, at `{"a":{"x":"s","a":true}}` under the name `a`. -/
theorem shadowed_parent_witness :
    ([("x", GoValue.str "s"), ("a", .bool true)] : GoMap GoValue) ≠ [] ∧
    (mapKeys [("x", GoValue.str "s"), ("a", .bool true)]).Nodup ∧
    (∀ kv ∈ [("x", GoValue.str "s"), ("a", .bool true)], isObject kv.2 = false) ∧
    ∃ fields, toProtos "a" [("a", .object [("x", .str "s"), ("a", .bool true)])] =
        [("a", fields)] ∧
      toProtos "a" [("x", .str "s"), ("a", .bool true)] = [("a", fields)] ∧
      (∀ l ∈ fields, ∃ j v, [("x", GoValue.str "s"), ("a", .bool true)][j]? = some (l.1, v) ∧
        l.2 = (typeWithNameAndIndex l.1 v j).1) ∧
      (∀ j k v, [("x", GoValue.str "s"), ("a", .bool true)][j]? = some (k, v) →
        (typeWithNameAndIndex k v j).1 ≠ "" →
        mapGet fields k = some (typeWithNameAndIndex k v j).1) ∧
      (∀ l ∈ fields, l.2 ≠ "\t" ++ "a" ++ " " ++ "a" ++ " = " ++ toString 0 ++ ";") :=
  ⟨by simp, by simp +decide [mapKeys], by simp [isObject],
   shadowed_parent "a" _ (by simp) (by simp +decide [mapKeys]) (by simp [isObject])⟩

theorem eq_singleton_of_nodup (l : List String) (name : String) (hnd : l.Nodup)
    (hmem : name ∈ l) (hall : ∀ n ∈ l, n = name) : l = [name] := by
  cases l with
  | nil => simp at hmem
  | cons a rest =>
    have ha : a = name := hall a (List.mem_cons_self _ _)
    subst ha
    cases rest with
    | nil => rfl
    | cons b rest =>
      have hb : b = a := hall b (by simp)
      simp [hb] at hnd

/-- C19: the names defined by `toProtos messageName obj` are exactly
`messageName` and the keys that hold a non-empty object, in the object itself
and, recursively, in its non-empty nested objects; the names are pairwise
distinct, `messageName` is always among them, and a key whose value is an empty
object, an array or a scalar adds no name, so an object with only such values
yields the names `[messageName]`. -/
theorem message_names :
    (∀ (messageName : String) (obj : GoMap GoValue) (n : String),
      n ∈ mapKeys (toProtos messageName obj) ↔ n = messageName ∨ n ∈ nestedNames obj) ∧
    (∀ (messageName : String) (obj : GoMap GoValue),
      (mapKeys (toProtos messageName obj)).Nodup ∧
        messageName ∈ mapKeys (toProtos messageName obj)) ∧
    nestedNames [] = [] ∧
    (∀ (k : String) (e : String × GoValue) (m rest : GoMap GoValue),
      nestedNames ((k, .object (e :: m)) :: rest) =
        k :: (nestedNames (e :: m) ++ nestedNames rest)) ∧
    (∀ (k : String) (v : GoValue) (rest : GoMap GoValue),
      (∀ e m, v ≠ .object (e :: m)) → nestedNames ((k, v) :: rest) = nestedNames rest) ∧
    (∀ (messageName : String) (obj : GoMap GoValue),
      (∀ kv ∈ obj, ∀ e m, kv.2 ≠ .object (e :: m)) →
      mapKeys (toProtos messageName obj) = [messageName]) := by
  refine ⟨fun messageName obj n => mem_mapKeys_toProtos obj messageName n, ?_, ?_,
    nestedNames_object, nestedNames_other, ?_⟩
  · intro messageName obj
    exact ⟨nodup_toProtos messageName obj,
      (mem_mapKeys_toProtos obj messageName messageName).2 (Or.inl rfl)⟩
  · simp [nestedNames, nestedObjects]
  · intro messageName obj hno
    have hnn : nestedNames obj = [] := by
      induction obj with
      | nil => simp [nestedNames, nestedObjects]
      | cons kv rest ih =>
        obtain ⟨k, v⟩ := kv
        rw [nestedNames_other k v rest (hno (k, v) (List.mem_cons_self _ _))]
        exact ih (fun kv hkv => hno kv (List.mem_cons_of_mem _ hkv))
    apply eq_singleton_of_nodup _ _ (nodup_toProtos messageName obj)
      ((mem_mapKeys_toProtos obj messageName messageName).2 (Or.inl rfl))
    intro n hn
    simpa [mem_mapKeys_toProtos, hnn] using hn

/-- C19, at `{"e":{},"l":[{"x":{"y":1}}],"s":"t"}` under `RootBuf`. -/
theorem message_names_witness :
    (∀ kv ∈ [("e", GoValue.object []),
        ("l", .slice [.object [("x", .object [("y", .float64 1)])]]), ("s", .str "t")],
      ∀ e m, kv.2 ≠ GoValue.object (e :: m)) ∧
    mapKeys (toProtos "RootBuf" [("e", GoValue.object []),
        ("l", .slice [.object [("x", .object [("y", .float64 1)])]]), ("s", .str "t")]) =
      ["RootBuf"] :=
  ⟨by simp, message_names.2.2.2.2.2 "RootBuf" _ (by simp)⟩

end Jsonbuf
